import Mathlib

/-!
Verification of the CPQ editor's document state engine.

This file gives a shallow embedding, in Lean, of the state-management core of
the CPQ editor (`src/js/core/utils.js` StateManager, `src/js/core/events.js`
EventSystem, `src/js/layouts/page-manager.js` PageManager,
`src/js/editor/mention.js` MentionSystem, and the TextEditor module), and
proves or refutes the testable properties stated in the specification.

JavaScript values in the state tree are modelled by the inductive type `Value`
below; JS mutation is modelled by explicit state passing; operations that can
throw a JS exception return `Option`/`Except`, with `none`/`.error` standing
for the thrown exception.  `Utils.deepClone` (a `JSON.parse(JSON.stringify _)`
round trip) is modelled by `jsonClean`, which drops `undefined`-valued object
fields and turns `undefined` array elements into `null`, together with
`deepCloneE`, which errors on a top-level `undefined` exactly as
`JSON.parse(JSON.stringify(undefined))` raises a SyntaxError.

Property accesses on string/number/boolean primitives (e.g. `"abc".length`)
return `undefined` in this model; no state path in the repository addresses
into a primitive, and the modelled guards never rely on such accesses.
-/

set_option maxHeartbeats 1000000

/-- A JavaScript value as stored in the CPQ editor's state tree: `undefined`,
`null`, booleans, numbers (integral in this code base), strings, arrays and
plain objects (ordered key/value lists, as JS object insertion order). -/
inductive Value where
  | vUndef
  | vNull
  | vBool (b : Bool)
  | vNum (n : Int)
  | vStr (s : String)
  | vArr (xs : List Value)
  | vObj (fs : List (String × Value))

namespace Value

/-- Is the value `undefined`? -/
def isUndef : Value → Bool
  | .vUndef => true
  | _ => false

/-- Is the value `undefined` or `null` (the two JS values on which property
access and property assignment throw a TypeError)? -/
def nullish : Value → Bool
  | .vUndef => true
  | .vNull => true
  | _ => false

/-- JS truthiness: `undefined`, `null`, `false`, `0` and `""` are falsy;
every object and array is truthy. -/
def truthy : Value → Bool
  | .vUndef => false
  | .vNull => false
  | .vBool b => b
  | .vNum n => n != 0
  | .vStr s => s != ""
  | .vArr _ => true
  | .vObj _ => true

/-- First-match association-list lookup, as JS property lookup on an object. -/
def lookupF : List (String × Value) → String → Option Value
  | [], _ => none
  | (k', v) :: fs, k => if k' = k then some v else lookupF fs k

/-- Replace the value of key `k` (first occurrence) or append it, as JS
property assignment on an object. -/
def setField : List (String × Value) → String → Value → List (String × Value)
  | [], k, v => [(k, v)]
  | (k', v') :: fs, k, v => if k' = k then (k, v) :: fs else (k', v') :: setField fs k v

/-- Decimal value of a digit string (`none` on any non-digit). -/
def digitsValAux : List Char → Nat → Option Nat
  | [], acc => some acc
  | c :: cs, acc =>
    if '0' ≤ c && c ≤ '9' then digitsValAux cs (acc * 10 + (c.toNat - 48)) else none

/-- A canonical array index: the string is exactly the decimal numeral of `i`
(JS array element access uses canonical numeric strings: `"0"`, `"12"`, … —
no leading zeros, no signs). -/
def parseIndex (s : String) : Option Nat :=
  match s.data with
  | [] => none
  | ['0'] => some 0
  | '0' :: _ => none
  | l => digitsValAux l 0

/-- JS array element assignment `xs[i] = v`; if `i` is past the end the array
is extended with holes (`undefined`). -/
def setIdx (xs : List Value) (i : Nat) (v : Value) : List Value :=
  if i < xs.length then xs.set i v
  else xs ++ List.replicate (i - xs.length) Value.vUndef ++ [v]

/-- JS property read `v[k]`: object key lookup, array index lookup, and
`undefined` in every other case (missing keys included). -/
def getProp : Value → String → Value
  | .vObj fs, k =>
    match lookupF fs k with
    | some v => v
    | none => .vUndef
  | .vArr xs, k =>
    match parseIndex k with
    | some i => xs.getD i .vUndef
    | none => .vUndef
  | _, _ => (.vUndef)

/-- JS property write `v[k] = w`: updates an object field or array element;
a silent no-op on other (primitive) receivers, as in non-strict mode. -/
def setProp : Value → String → Value → Value
  | .vObj fs, k, w => .vObj (setField fs k w)
  | .vArr xs, k, w =>
    match parseIndex k with
    | some i => .vArr (setIdx xs i w)
    | none => .vArr xs
  | prim, _, _ => prim

mutual

/-- No `undefined` occurs anywhere in the value.  On such values the
`JSON.parse(JSON.stringify _)` round trip (`jsonClean`) is the identity. -/
def noUndef : Value → Bool
  | .vUndef => false
  | .vNull => true
  | .vBool _ => true
  | .vNum _ => true
  | .vStr _ => true
  | .vArr xs => noUndefL xs
  | .vObj fs => noUndefF fs

/-- `noUndef` on every element of a list of values. -/
def noUndefL : List Value → Bool
  | [] => true
  | x :: xs => noUndef x && noUndefL xs

/-- `noUndef` on every value of a field list. -/
def noUndefF : List (String × Value) → Bool
  | [] => true
  | (_, x) :: fs => noUndef x && noUndefF fs

end

mutual

/-- The effect of `JSON.parse(JSON.stringify v)` on a defined value:
object fields whose value is `undefined` are dropped, `undefined` array
elements become `null`, everything else is preserved. -/
def jsonClean : Value → Value
  | .vArr xs => .vArr (jsonCleanL xs)
  | .vObj fs => .vObj (jsonCleanF fs)
  | v => v

/-- `jsonClean` on array elements (`undefined` turns into `null`). -/
def jsonCleanL : List Value → List Value
  | [] => []
  | .vUndef :: xs => .vNull :: jsonCleanL xs
  | x :: xs => jsonClean x :: jsonCleanL xs

/-- `jsonClean` on object fields (`undefined`-valued fields are dropped). -/
def jsonCleanF : List (String × Value) → List (String × Value)
  | [] => []
  | (_, .vUndef) :: fs => jsonCleanF fs
  | (k, x) :: fs => (k, jsonClean x) :: jsonCleanF fs

end

end Value

/-! ### JS string primitives

The JS methods used by the source (`String.prototype.split('.')`,
`startsWith`, `includes`, `toLowerCase`) are modelled directly on the
character list of a Lean `String`. -/

/-- JS `s.split('.')` on a character list: always returns at least one
(possibly empty) segment, and preserves empty segments, as JS does
(`"".split('.') = [""]`, `"a..b".split('.') = ["a","","b"]`). -/
def splitDotCh : List Char → List (List Char)
  | [] => [[]]
  | c :: rest =>
    if c = '.' then [] :: splitDotCh rest
    else
      match splitDotCh rest with
      | s :: ss => (c :: s) :: ss
      | [] => [[c]]

/-- Join segments back with `'.'`; the left inverse of `splitDotCh`. -/
def joinDotCh : List (List Char) → List Char
  | [] => []
  | [s] => s
  | s :: ss => s ++ '.' :: joinDotCh ss

/-- JS `s.split('.')` for a string, segments as strings. -/
def splitDot (s : String) : List String :=
  (splitDotCh s.data).map (fun cs => String.mk cs)

/-- Character-list version of JS `startsWith`: `chStarts pre s` is true iff
`s` begins with `pre`. -/
def chStarts : List Char → List Char → Bool
  | [], _ => true
  | _ :: _, [] => false
  | a :: asx, b :: bs => a = b && chStarts asx bs

/-- JS `s.startsWith(pre)`. -/
def jsStartsWith (s pre : String) : Bool :=
  chStarts pre.data s.data

/-- Character-list version of JS `includes`: true iff `sub` occurs contiguously
inside `s`. -/
def chIncludes (sub s : List Char) : Bool :=
  match s with
  | [] => chStarts sub []
  | _ :: rest => chStarts sub s || chIncludes sub rest

/-- JS `s.includes(sub)`. -/
def jsIncludes (s sub : String) : Bool :=
  chIncludes sub.data s.data

/-- JS `toLowerCase` on one character (ASCII range, which covers every label,
description and query compared in the source). -/
def lowerChar (c : Char) : Char :=
  if c.toNat ≥ 65 && c.toNat ≤ 90 then Char.ofNat (c.toNat + 32) else c

/-- JS `s.toLowerCase()`. -/
def jsToLower (s : String) : String :=
  String.mk (s.data.map lowerChar)

/-! ### PathStore: `getValueAtPath`, `setValueAtPath` (src/js/core/utils.js) -/

namespace StateManager

open Value

/-- Traversal core of `getValueAtPath`: before each property read the source
checks `current === null || current === undefined` and returns `undefined`,
so the traversal never throws. -/
def getValueAtPathL : Value → List String → Value
  | cur, [] => cur
  | cur, p :: ps =>
    if nullish cur then .vUndef
    else getValueAtPathL (getProp cur p) ps

/-- `getValueAtPath(obj, path)` from src/js/core/utils.js lines 268-278:
splits the path on `'.'` and walks the tree, yielding `undefined` as soon as
a `null`/`undefined` is reached. -/
def getValueAtPath (obj : Value) (path : String) : Value :=
  getValueAtPathL obj (splitDot path)

/-- Traversal core of `setValueAtPath`.  For every intermediate segment the
source replaces a falsy `current[part]` by `{}` and steps into
`current[part]`; the final segment is a plain property assignment.  Reading
or assigning a property of `undefined`/`null` throws a TypeError, modelled
as `none`.  (`parts` is the result of `split('.')`, hence never empty; the
`[]` case is unreachable.) -/
def setValueAtPathL : Value → List String → Value → Option Value
  | _, [], v => some v
  | cur, p :: ps, v =>
    if nullish cur then none
    else
      match ps with
      | [] => some (setProp cur p v)
      | _ :: _ =>
        let cur1 := if truthy (getProp cur p) then cur else setProp cur p (.vObj [])
        match setValueAtPathL (getProp cur1 p) ps v with
        | none => none
        | some sub => some (setProp cur1 p sub)

/-- `setValueAtPath(obj, path, value)` from src/js/core/utils.js lines
286-299: creates intermediate objects as needed and assigns the value; the
changed-path accumulation (`changedPaths.push(path)`) is handled by the
callers below. -/
def setValueAtPath (obj : Value) (path : String) (v : Value) : Option Value :=
  setValueAtPathL obj (splitDot path) v

/-- `Utils.deepClone(obj) = JSON.parse(JSON.stringify(obj))`.
`JSON.stringify(undefined)` is `undefined`, so `JSON.parse` then receives the
string `"undefined"` and throws a SyntaxError; on every other value the round
trip is `jsonClean`. -/
def deepCloneE (v : Value) : Except String Value :=
  if isUndef v then .error "SyntaxError: JSON.parse"
  else .ok (jsonClean v)

/-- `StateManager.get(path)` from src/js/core/utils.js lines 315-317:
`Utils.deepClone(getValueAtPath(state, path))`. -/
def get (state : Value) (path : String) : Except String Value :=
  deepCloneE (getValueAtPath state path)

end StateManager

/-! ### EventSystem (src/js/core/events.js) -/

/-- One `EventSystem.emit` occurrence: the event name and, for
`state:changed`, the changed-path list the module-level `changedPaths`
variable holds while the listeners run. -/
structure EmitRec where
  name : String
  changed : List String
deriving DecidableEq

namespace EventSystem

/-- The pub/sub registry: per-event subscriber lists, flattened to a list of
(event name, callback id) pairs in registration order. -/
def Listeners := List (String × Nat)

/-- `EventSystem.on(event, callback)`: appends the callback to the event's
subscriber list. -/
def onEvt (ls : Listeners) (event : String) (cb : Nat) : Listeners :=
  List.append ls [(event, cb)]

/-- `EventSystem.emit(event, data)`: the callbacks invoked, in registration
order — exactly the ones registered under this event name. -/
def emitTargets (ls : Listeners) (event : String) : List Nat :=
  (List.filter (fun e => e.1 = event) ls).map (fun e => e.2)

end EventSystem

/-! ### StateManager: history, update, undo, redo, reset, watch
(src/js/core/utils.js lines 186-424) -/

namespace StateManager

open Value

/-- `hasPathChanged(path)` from src/js/core/utils.js lines 247-260: some
changed path equals `path`, or extends `path + "."`, or is extended by it. -/
def hasPathChanged (changedPaths : List String) (path : String) : Bool :=
  changedPaths.any (fun changedPath =>
    changedPath = path
    || jsStartsWith changedPath (path ++ ".")
    || jsStartsWith path (changedPath ++ "."))

/-- The handler `StateManager.watch` registers (lines 410-419): on a
`state:changed` event it runs the callback iff some watched path has
changed. -/
def watchHandlerFires (pathArray : List String) (changedPaths : List String) : Bool :=
  pathArray.any (fun path => hasPathChanged changedPaths path)

/-- `StateManager.watch(paths, callback)` (line 421): subscribes the handler
to the `"state:changed"` event — and to no other event. -/
def watch (ls : EventSystem.Listeners) (cb : Nat) : EventSystem.Listeners :=
  EventSystem.onEvt ls "state:changed" cb

/-- The history block of `update` (lines 341-356), run after the mutation:
if at least one path changed, push the pre-mutation snapshot onto
`state.history.past`, clear `state.history.future`, drop the oldest entry
once the past exceeds 50 entries, and emit `state:changed`.  `none` models
the TypeError thrown when `state.history.past` is not an array. -/
def pushHistory (st1 prev : Value) (changed : List String) : Option (Value × List EmitRec) :=
  if changed.isEmpty then some (st1, [])
  else
    let hist := getProp st1 "history"
    match getProp hist "past" with
    | .vArr ps =>
      let ps1 := List.append ps [prev]
      let ps2 := if ps1.length > 50 then ps1.tail else ps1
      let hist1 := setProp (setProp hist "past" (.vArr ps2)) "future" (.vArr [])
      some (setProp st1 "history" hist1, [⟨"state:changed", changed⟩])
    | _ => none

/-- `StateManager.update(path, value)` (single-path overload, lines 324-357):
clone the current state, apply one `setValueAtPath` (which records the path
as changed), then run the history block. -/
def update1 (st : Value) (path : String) (v : Value) : Option (Value × List EmitRec) :=
  match deepCloneE st with
  | .error _ => none
  | .ok prev =>
    match setValueAtPath st path v with
    | none => none
    | some st1 => pushHistory st1 prev [path]

/-- The `Object.entries(pathOrUpdates).forEach` loop of `update` (lines
336-339): apply each entry's `setValueAtPath` in order, accumulating the
changed paths. -/
def applyEntries : Value → List (String × Value) → List String →
    Option (Value × List String)
  | st, [], changed => some (st, changed)
  | st, (p, v) :: rest, changed =>
    match setValueAtPath st p v with
    | none => none
    | some st1 => applyEntries st1 rest (List.append changed [p])

/-- `StateManager.update(updatesObject)` (multi-path overload): clone the
current state, apply every entry, then run the history block — which is
skipped entirely (no push, no future clear, no emit) when no path changed. -/
def updateM (st : Value) (entries : List (String × Value)) : Option (Value × List EmitRec) :=
  match deepCloneE st with
  | .error _ => none
  | .ok prev =>
    match applyEntries st entries [] with
    | none => none
    | some (st1, changed) => pushHistory st1 prev changed

/-- `StateManager.undo()` (lines 362-373): if `past` is non-empty, pop its
last snapshot, make it current, and set its `future` to the cloned
pre-undo state followed by the old future; emits `state:undo`.  `none`
models the TypeErrors on ill-formed history fields. -/
def undo (st : Value) : Option (Value × List EmitRec) :=
  let hist := getProp st "history"
  if nullish hist then none
  else
    match getProp hist "past" with
    | .vArr ps =>
      match ps.getLast? with
      | none => some (st, [])
      | some x =>
        match getProp hist "future" with
        | .vArr fl =>
          let newFuture : List Value := jsonClean st :: fl
          let xhist := getProp x "history"
          if nullish xhist then none
          else some (setProp x "history" (setProp xhist "future" (.vArr newFuture)),
                     [⟨"state:undo", []⟩])
        | _ => none
    | _ => none

/-- `StateManager.redo()` (lines 378-389): if `future` is non-empty, shift
its first snapshot, make it current, and set its `past` to the old past
followed by the cloned pre-redo state; emits `state:redo`. -/
def redo (st : Value) : Option (Value × List EmitRec) :=
  let hist := getProp st "history"
  if nullish hist then none
  else
    match getProp hist "future" with
    | .vArr fl =>
      match fl with
      | [] => some (st, [])
      | y :: _ =>
        match getProp hist "past" with
        | .vArr ps =>
          let newPast : List Value := List.append ps [jsonClean st]
          let yhist := getProp y "history"
          if nullish yhist then none
          else some (setProp y "history" (setProp yhist "past" (.vArr newPast)),
                     [⟨"state:redo", []⟩])
        | _ => none
    | _ => none

/-- `StateManager.reset()` (lines 394-399): replace the state with a deep
clone of `initialState` and emit `state:reset`. -/
def reset (initialState _st : Value) : Value × List EmitRec :=
  (jsonClean initialState, [⟨"state:reset", []⟩])

/-- State-only view of `undo`. -/
def undoVal (st : Value) : Option Value :=
  (undo st).map (fun r => r.1)

/-- State-only view of `redo`. -/
def redoVal (st : Value) : Option Value :=
  (redo st).map (fun r => r.1)

/-- Iterate a fallible state transformer `k` times (first application
outermost). -/
def iterOpt : Nat → (Value → Option Value) → Value → Option Value
  | 0, _, s => some s
  | k + 1, f, s => (f s).bind (iterOpt k f)

/-- Run a list of single-path `update` commits in order, returning the final
state together with the pre-commit states, in chronological order. -/
def runAux : Value → List (String × Value) → Option (Value × List Value)
  | s, [] => some (s, [])
  | s, (p, v) :: cs =>
    match update1 s p v with
    | none => none
    | some (s1, _) =>
      match runAux s1 cs with
      | none => none
      | some (a, pres) => some (a, s :: pres)

/-- The final state of a run of single-path `update` commits. -/
def runCommits (s : Value) (cs : List (String × Value)) : Option Value :=
  (runAux s cs).map (fun r => r.1)

end StateManager

/-! ### The initial state (src/js/core/utils.js lines 191-234)

`Utils.generateId` draws a random 9-character suffix; the three ids minted at
module load are passed in as parameters. -/

/-- `Utils.generateId(prefix)`: `prefix + "-" + random suffix`; the caller
supplies the random part. -/
def generateId (pre rand : String) : String :=
  pre ++ "-" ++ rand

/-- The `initialState` object literal of the StateManager module, with the
three generated ids as parameters. -/
def mkInitialState (docId pageId blockId : String) : Value :=
  .vObj
    [("document", .vObj
        [("id", .vStr docId),
         ("name", .vStr "Untitled Template"),
         ("pages", .vArr
            [.vObj
               [("id", .vStr pageId),
                ("header", .vStr ""),
                ("footer", .vStr ""),
                ("blocks", .vArr
                   [.vObj
                      [("id", .vStr blockId),
                       ("type", .vStr "text"),
                       ("content", .vStr "")]]),
                ("settings", .vObj
                   [("size", .vStr "A4"),
                    ("orientation", .vStr "portrait"),
                    ("padding", .vObj
                       [("top", .vNum 2),
                        ("right", .vNum 2),
                        ("bottom", .vNum 2),
                        ("left", .vNum 2)])])]])]),
     ("ui", .vObj
        [("currentPage", .vNum 0),
         ("activeElement", .vNull),
         ("selectionRange", .vNull),
         ("showMentionPanel", .vBool false),
         ("showStylePanel", .vBool false),
         ("mentionQuery", .vStr ""),
         ("autoSaveStatus", .vStr "saved"),
         ("activeTab", .vStr "create")]),
     ("history", .vObj
        [("past", .vArr []),
         ("future", .vArr [])])]

/-! ### MentionSystem: suggestion catalog and filter
(src/js/editor/mention.js lines 17-29 and 402-411) -/

namespace MentionSystem

/-- One suggestion-catalog entry (`id`, `type`, shape parameters, `icon`,
`label`, `description`). -/
structure Item where
  id : String
  type : String
  level : Option Nat
  rows : Option Nat
  cols : Option Nat
  count : Option Nat
  icon : String
  label : String
  description : String
deriving DecidableEq, Repr

/-- The static `suggestions` catalog, in source order. -/
def suggestions : List Item :=
  [⟨"h1", "heading", some 1, none, none, none, "H1", "Heading 1", "Big section heading"⟩,
   ⟨"h2", "heading", some 2, none, none, none, "H2", "Heading 2", "Medium section heading"⟩,
   ⟨"h3", "heading", some 3, none, none, none, "H3", "Heading 3", "Small section heading"⟩,
   ⟨"table", "table", none, some 3, some 3, none, "⊞", "Table", "Insert a table"⟩,
   ⟨"table-2x2", "table", none, some 2, some 2, none, "⊞", "Table 2×2", "Insert a 2×2 table"⟩,
   ⟨"table-3x3", "table", none, some 3, some 3, none, "⊞", "Table 3×3", "Insert a 3×3 table"⟩,
   ⟨"table-4x4", "table", none, some 4, some 4, none, "⊞", "Table 4×4", "Insert a 4×4 table"⟩,
   ⟨"cols-2", "columns", none, none, none, some 2, "⫴", "2 Columns", "Insert 2-column layout"⟩,
   ⟨"cols-3", "columns", none, none, none, some 3, "⫶", "3 Columns", "Insert 3-column layout"⟩,
   ⟨"cols-4", "columns", none, none, none, some 4, "⫸", "4 Columns", "Insert 4-column layout"⟩,
   ⟨"field", "field", none, none, none, none, "{}", "Field", "Insert a dynamic field"⟩]

/-- `filterItems(query)` from src/js/editor/mention.js lines 402-411: the
falsy (empty) query returns the whole catalog; otherwise a case-insensitive
substring filter over `label` and `description`, preserving catalog order. -/
def filterItems (query : String) : List Item :=
  if query = "" then suggestions
  else
    let q := jsToLower query
    suggestions.filter (fun item =>
      jsIncludes (jsToLower item.label) q || jsIncludes (jsToLower item.description) q)

end MentionSystem

/-! ### TextEditor: `insertContent` (src/unnamed/part_000 lines 409-435)

The live editing surface is modelled by the text content of the active
editable region, the cursor offset in it, whether an editor is active, and
the module-level `mentionTriggerPos` (anchor offset and query of the active
trigger session).  Writing the updated content back to the state
(`saveBlockContent`) is orthogonal to the span-deletion protocol and is not
modelled here. -/

namespace TextEditor

/-- The editing-surface state `insertContent` operates on. -/
structure EditorState where
  content : String
  cursor : Nat
  mentionTriggerPos : Option (Nat × String)
  activeEditor : Bool
deriving DecidableEq, Repr

/-- `deleteRange.deleteContents()` for the span from `start` to `stop` in the
region's text. -/
def deleteSpan (s : String) (start stop : Nat) : String :=
  String.mk (s.data.take start ++ s.data.drop stop)

/-- `document.execCommand('insertHTML', false, html)` at the cursor. -/
def execInsertHtml (st : EditorState) (html : String) : EditorState :=
  { st with
      content := String.mk (st.content.data.take st.cursor ++ html.data
                            ++ st.content.data.drop st.cursor),
      cursor := st.cursor + html.data.length }

/-- `TextEditor.insertContent(html)`, in source order: first
`EventSystem.emit('mention:hide')` and `mentionTriggerPos = null`, then the
`activeEditor` guard, then the `if (mentionTriggerPos)` span-deletion block
(which tests the variable just assigned `null`), then the HTML insertion. -/
def insertContent (st0 : EditorState) (html : String) : EditorState × List EmitRec :=
  let evs : List EmitRec := [⟨"mention:hide", []⟩]
  let st1 := { st0 with mentionTriggerPos := none }
  if !st1.activeEditor then (st1, evs)
  else
    let st2 :=
      match st1.mentionTriggerPos with
      | some (anchor, _) =>
        { st1 with
            content := deleteSpan st1.content anchor st1.cursor,
            cursor := anchor }
      | none => st1
    (execInsertHtml st2 html, evs)

/-- `TextEditor.insertHeading(level)` (lines 441-447): the HTML payload it
passes to `insertContent`. -/
def headingHtml (level : Nat) : String :=
  "<h" ++ toString level ++ " data-heading=\x22true\x22>Heading "
    ++ toString level ++ "</h" ++ toString level ++ "><br>"

end TextEditor

/-! ### PageManager (src/js/layouts/page-manager.js) and TextEditor block
deletion (src/unnamed/part_000) -/

/-- JS strict equality `v === s` against a string literal. -/
def idEq (v : Value) (s : String) : Bool :=
  match v with
  | .vStr t => t = s
  | _ => false

namespace PageManager

open Value StateManager

/-- The `StateManager.get('document.pages') || []` read both PageManager
mutations start with: the `get` may throw (modelled `.error`), and a falsy
result is replaced by `[]`. -/
def getPagesOrEmpty (s : Value) : Except String Value :=
  match StateManager.get s "document.pages" with
  | .error e => .error e
  | .ok v => .ok (if truthy v then v else .vArr [])

/-- `PageManager.deletePage(pageId)` (lines 199-233).  `confirmed` is the
user's answer to the `confirm` dialog; `alert` has no effect on state.
`none` models a thrown TypeError (non-array pages, non-numeric current
page). -/
def deletePage (s : Value) (pageId : String) (confirmed : Bool) :
    Option (Value × List EmitRec) :=
  match getPagesOrEmpty s with
  | .error _ => none
  | .ok pagesV =>
    match pagesV with
    | .vArr pages =>
      if pages.length ≤ 1 then some (s, [])
      else if !confirmed then some (s, [])
      else
        match pages.findIdx? (fun p => idEq (getProp p "id") pageId) with
        | none => some (s, [])
        | some pageIndex =>
          let newPages := pages.eraseIdx pageIndex
          match StateManager.get s "ui.currentPage" with
          | .error _ => none
          | .ok (.vNum n) =>
            let newCur : Int := if n ≥ (pageIndex : Int) then max 0 (n - 1) else n
            updateM s [("document.pages", .vArr newPages),
                       ("ui.currentPage", .vNum newCur)]
          | .ok _ => none
    | _ => none

/-- `PageManager.duplicatePage(pageId)` (lines 156-193).  `rand n` is the
random suffix of the `n`-th `Utils.generateId` call (`0` for the page id,
`j + 1` for the `j`-th block id). -/
def duplicatePage (s : Value) (pageId : String) (rand : Nat → String) :
    Option (Value × List EmitRec) :=
  match getPagesOrEmpty s with
  | .error _ => none
  | .ok pagesV =>
    match pagesV with
    | .vArr pages =>
      match pages.findIdx? (fun p => idEq (getProp p "id") pageId) with
      | none => some (s, [])
      | some pageIndex =>
        let sourcePage := pages.getD pageIndex .vUndef
        match deepCloneE sourcePage with
        | .error _ => none
        | .ok newPage0 =>
          let newPage1 := setProp newPage0 "id" (.vStr (generateId "page" (rand 0)))
          match getProp newPage1 "blocks" with
          | .vArr bs =>
            let newBlocks := bs.mapIdx (fun j b =>
              setProp b "id" (.vStr (generateId "block" (rand (j + 1)))))
            let newPage := setProp newPage1 "blocks" (.vArr newBlocks)
            let newPages := pages.take (pageIndex + 1) ++ [newPage]
                              ++ pages.drop (pageIndex + 1)
            updateM s [("document.pages", .vArr newPages),
                       ("ui.currentPage", .vNum ((pageIndex : Int) + 1))]
          | _ => none
    | _ => none

end PageManager

namespace TextEditor

open Value StateManager

/-- Inner `forEach` of the block search: scan one page's blocks, overwriting
the found position on every id match (the source records the last match). -/
def scanRow : List Value → String → Nat → Nat → Option (Nat × Nat) → Option (Nat × Nat)
  | [], _, _, _, acc => acc
  | b :: bs, blockId, pIdx, bIdx, acc =>
    scanRow bs blockId pIdx (bIdx + 1)
      (if idEq (getProp b "id") blockId then some (pIdx, bIdx) else acc)

/-- Outer `forEach` of the block search over all pages; the outer `none`
models the TypeError when a page's `blocks` is not an array. -/
def findBlockPosAux : List Value → String → Nat → Option (Nat × Nat) →
    Option (Option (Nat × Nat))
  | [], _, _, acc => some acc
  | pg :: rest, blockId, pIdx, acc =>
    match getProp pg "blocks" with
    | .vArr bs => findBlockPosAux rest blockId (pIdx + 1) (scanRow bs blockId pIdx 0 acc)
    | _ => none

/-- The page/block position search shared by `deleteBlock` and
`addBlockAfter`. -/
def findBlockPos (pages : List Value) (blockId : String) : Option (Option (Nat × Nat)) :=
  findBlockPosAux pages blockId 0 none

/-- `TextEditor.deleteBlock(blockId)` (src/unnamed/part_000 lines 337-403),
state effect only (DOM removal and focus movement act on the rendering
surface).  `domHasBlock` is whether `document.querySelector` finds the
block element; without it the function returns before touching state.
Note the function itself has no last-block guard: it splices the block out
of its page whatever the page's block count. -/
def deleteBlock (s : Value) (blockId : String) (domHasBlock : Bool) :
    Option (Value × List EmitRec) :=
  if !domHasBlock then some (s, [])
  else
    match deepCloneE s with
    | .error _ => none
    | .ok sc =>
      match getValueAtPath sc "document.pages" with
      | .vArr pages =>
        match findBlockPos pages blockId with
        | none => none
        | some none => some (s, [])
        | some (some (pageIndex, blockIndex)) =>
          match getProp (pages.getD pageIndex .vUndef) "blocks" with
          | .vArr blocks =>
            let newBlocks := blocks.eraseIdx blockIndex
            update1 s ("document.pages." ++ toString pageIndex ++ ".blocks")
              (.vArr newBlocks)
          | _ => none
      | _ => none

/-- The Backspace branch of `handleEditorKeydown` (src/unnamed/part_000
lines 175-187): only when the active editor's text is empty and the page
body holds more than one `.editor-block` element does it call
`deleteBlock`.  `editorEmptyAndActive` is the
`activeEditor && textContent.trim() === ''` test, `domBlockCount` the
`querySelectorAll('.editor-block').length` count. -/
def handleBackspaceEmptyBlock (s : Value) (blockId : String)
    (editorEmptyAndActive : Bool) (domBlockCount : Nat) (domHasBlock : Bool) :
    Option (Value × List EmitRec) :=
  if editorEmptyAndActive && domBlockCount > 1 then deleteBlock s blockId domHasBlock
  else some (s, [])

end TextEditor

/-! ### Basic lemmas about the value model -/

namespace Value

theorem lookupF_setField_same : ∀ (fs : List (String × Value)) (k : String) (v : Value),
    lookupF (setField fs k v) k = some v
  | [], k, v => by simp [setField, lookupF]
  | (k', v') :: fs, k, v => by
    by_cases h : k' = k <;> simp [setField, lookupF, h, lookupF_setField_same fs k v]

theorem lookupF_setField_ne : ∀ (fs : List (String × Value)) (k k' : String) (v : Value),
    k ≠ k' → lookupF (setField fs k v) k' = lookupF fs k'
  | [], k, k', v, h => by simp [setField, lookupF, h]
  | (k0, v0) :: fs, k, k', v, h => by
    by_cases h0 : k0 = k
    · subst h0; simp [setField, lookupF, h]
    · simp only [setField, if_neg h0, lookupF]
      by_cases h1 : k0 = k' <;> simp [h1, lookupF_setField_ne fs k k' v h]

theorem getProp_setProp_obj_same (fs : List (String × Value)) (k : String) (v : Value) :
    getProp (setProp (.vObj fs) k v) k = v := by
  simp [setProp, getProp, lookupF_setField_same]

theorem getProp_setProp_obj_ne (fs : List (String × Value)) (k k' : String) (v : Value)
    (h : k ≠ k') : getProp (setProp (.vObj fs) k v) k' = getProp (.vObj fs) k' := by
  simp [setProp, getProp, lookupF_setField_ne fs k k' v h]

theorem noUndefF_setField : ∀ (fs : List (String × Value)) (k : String) (v : Value),
    noUndefF fs = true → noUndef v = true → noUndefF (setField fs k v) = true
  | [], k, v, _, hv => by simp [setField, noUndefF, noUndef, hv]
  | (k0, v0) :: fs, k, v, hfs, hv => by
    simp only [noUndefF, Bool.and_eq_true] at hfs
    by_cases h0 : k0 = k <;>
      simp [setField, h0, noUndefF, hv, hfs, noUndefF_setField fs k v hfs.2 hv]

theorem noUndef_setProp_obj (fs : List (String × Value)) (k : String) (v : Value)
    (hfs : noUndef (Value.vObj fs) = true) (hv : noUndef v = true) :
    noUndef (setProp (.vObj fs) k v) = true := by
  simp only [noUndef] at hfs ⊢
  exact noUndefF_setField fs k v hfs hv

theorem lookupF_noUndef : ∀ (fs : List (String × Value)) (k : String) (v : Value),
    noUndefF fs = true → lookupF fs k = some v → noUndef v = true
  | (k0, v0) :: fs, k, v, hfs, hl => by
    simp only [noUndefF, Bool.and_eq_true] at hfs
    by_cases h0 : k0 = k
    · simp only [lookupF, if_pos h0] at hl
      cases hl; exact hfs.1
    · simp only [lookupF, if_neg h0] at hl
      exact lookupF_noUndef fs k v hfs.2 hl

theorem noUndefL_mem : ∀ (xs : List Value) (x : Value),
    noUndefL xs = true → x ∈ xs → noUndef x = true
  | y :: xs, x, hxs, hm => by
    simp only [noUndefL, Bool.and_eq_true] at hxs
    rcases List.mem_cons.mp hm with h | h
    · cases h; exact hxs.1
    · exact noUndefL_mem xs x hxs.2 h

theorem noUndefL_append (xs ys : List Value) (hx : noUndefL xs = true)
    (hy : noUndefL ys = true) : noUndefL (xs ++ ys) = true := by
  induction xs with
  | nil => simpa using hy
  | cons a xs ih =>
    simp only [noUndefL, Bool.and_eq_true] at hx ⊢
    exact ⟨hx.1, ih hx.2⟩

theorem noUndef_getProp_obj (fs : List (String × Value)) (k : String)
    (h : noUndef (Value.vObj fs) = true) (w : Value) (hw : getProp (.vObj fs) k = w)
    (hne : w.isUndef = false) : noUndef w = true := by
  simp only [getProp] at hw
  rcases hl : lookupF fs k with _ | v
  · rw [hl] at hw; subst hw; simp [isUndef] at hne
  · rw [hl] at hw; subst hw
    exact lookupF_noUndef fs k v (by simpa [noUndef] using h) hl

end Value

/-! ### jsonClean is the identity on values without `undefined` -/

namespace Value

mutual

theorem jsonClean_noUndef : ∀ (v : Value), noUndef v = true → jsonClean v = v
  | .vNull, _ => rfl
  | .vBool _, _ => rfl
  | .vNum _, _ => rfl
  | .vStr _, _ => rfl
  | .vArr xs, h => by
    simp only [jsonClean]
    rw [jsonCleanL_noUndef xs (by simpa [noUndef] using h)]
  | .vObj fs, h => by
    simp only [jsonClean]
    rw [jsonCleanF_noUndef fs (by simpa [noUndef] using h)]

theorem jsonCleanL_noUndef : ∀ (xs : List Value), noUndefL xs = true → jsonCleanL xs = xs
  | [], _ => rfl
  | x :: xs, h => by
    simp only [noUndefL, Bool.and_eq_true] at h
    have hx := h.1
    have ih := jsonCleanL_noUndef xs h.2
    cases x with
    | vUndef => simp [noUndef] at hx
    | vNull => simp [jsonCleanL, ih, jsonClean]
    | vBool b => simp [jsonCleanL, ih, jsonClean]
    | vNum n => simp [jsonCleanL, ih, jsonClean]
    | vStr s => simp [jsonCleanL, ih, jsonClean]
    | vArr ys => simp [jsonCleanL, ih, jsonClean_noUndef _ hx]
    | vObj gs => simp [jsonCleanL, ih, jsonClean_noUndef _ hx]

theorem jsonCleanF_noUndef : ∀ (fs : List (String × Value)), noUndefF fs = true →
    jsonCleanF fs = fs
  | [], _ => rfl
  | (k, x) :: fs, h => by
    simp only [noUndefF, Bool.and_eq_true] at h
    have hx := h.1
    have ih := jsonCleanF_noUndef fs h.2
    cases x with
    | vUndef => simp [noUndef] at hx
    | vNull => simp [jsonCleanF, ih, jsonClean]
    | vBool b => simp [jsonCleanF, ih, jsonClean]
    | vNum n => simp [jsonCleanF, ih, jsonClean]
    | vStr s => simp [jsonCleanF, ih, jsonClean]
    | vArr ys => simp [jsonCleanF, ih, jsonClean_noUndef _ hx]
    | vObj gs => simp [jsonCleanF, ih, jsonClean_noUndef _ hx]

end

end Value

/-! ### Claim C2 -/

/-- Claim C2 (code bug evidence): the spec says `get(path)` raises no error
for a missing path and returns `undefined`; in the code, however,
`StateManager.get` wraps `getValueAtPath` in `Utils.deepClone`, and
`JSON.parse(JSON.stringify(undefined))` throws a SyntaxError — so whenever a
path does not address a value (the inner traversal yields `undefined`),
`get` throws instead of returning `undefined`. -/
theorem c2_get_throws_on_missing_path (s : Value) (p : String)
    (h : StateManager.getValueAtPath s p = Value.vUndef) :
    StateManager.get s p = .error "SyntaxError: JSON.parse" := by
  unfold StateManager.get StateManager.deepCloneE
  rw [h]
  rfl

/-- Witness for C2: on the freshly created initial state, the missing path
`"document.missing"` makes `getValueAtPath` return `undefined`, and
`StateManager.get` throws. -/
theorem c2_get_throws_on_missing_path_witness :
    StateManager.getValueAtPath (mkInitialState "d1" "p1" "b1") "document.missing"
        = Value.vUndef
    ∧ StateManager.get (mkInitialState "d1" "p1" "b1") "document.missing"
        = .error "SyntaxError: JSON.parse" :=
  ⟨rfl, c2_get_throws_on_missing_path _ _ rfl⟩

/-! ### Claim C3 -/

/-- Claim C3 (code bug evidence): the spec says committing a suggestion item
deletes the text span from the anchor to the cursor (the trigger character
plus the query) before inserting the payload.  In
`TextEditor.insertContent`, however, `mentionTriggerPos` is set to `null`
before the `if (mentionTriggerPos)` guard of the deletion block, so the
deletion never runs: with an active trigger session (anchor 6, query
`"tab"`, content `"hello /tab"`, cursor 10), committing a level-2 heading
leaves the `"/tab"` span in the content and appends the payload after it. -/
theorem c3_commit_keeps_trigger_span :
    (TextEditor.insertContent ⟨"hello /tab", 10, some (6, "tab"), true⟩
        (TextEditor.headingHtml 2)).1.content
      = "hello /tab<h2 data-heading=\"true\">Heading 2</h2><br>"
    ∧ jsIncludes (TextEditor.insertContent ⟨"hello /tab", 10, some (6, "tab"), true⟩
        (TextEditor.headingHtml 2)).1.content "/tab" = true
    ∧ (TextEditor.insertContent ⟨"hello /tab", 10, some (6, "tab"), true⟩
        (TextEditor.headingHtml 2)).1.content
      ≠ "hello <h2 data-heading=\"true\">Heading 2</h2><br>" := by
  refine ⟨by decide, by decide, by decide⟩

/-! ### Claim C6 -/

/-- Claim C6: a commit whose mutation records zero changed paths (an `update`
whose updates object has no entries) adds no history entry: the state —
including `history.past` and `history.future` — is returned unchanged and no
event is emitted. -/
theorem c6_zero_changed_paths_is_free (st : Value) (h : st.isUndef = false) :
    StateManager.updateM st [] = some (st, []) := by
  unfold StateManager.updateM StateManager.deepCloneE StateManager.applyEntries
    StateManager.pushHistory
  simp [h]

/-- Witness for C6: the empty update on the initial state is the identity and
emits nothing. -/
theorem c6_zero_changed_paths_is_free_witness :
    StateManager.updateM (mkInitialState "d1" "p1" "b1") []
      = some (mkInitialState "d1" "p1" "b1", []) :=
  c6_zero_changed_paths_is_free _ rfl

/-! ### Claim C7: path-change detection -/

theorem splitDotCh_ne_nil : ∀ cs : List Char, splitDotCh cs ≠ []
  | [] => by simp [splitDotCh]
  | c :: rest => by
    by_cases h : c = '.'
    · simp [splitDotCh, h]
    · simp only [splitDotCh, if_neg h]
      rcases hs : splitDotCh rest with _ | ⟨s, ss⟩
      · exact absurd hs (splitDotCh_ne_nil rest)
      · simp

theorem splitDotCh_append_dot : ∀ a b : List Char,
    splitDotCh (a ++ '.' :: b) = splitDotCh a ++ splitDotCh b
  | [], b => by simp [splitDotCh]
  | c :: a, b => by
    by_cases h : c = '.'
    · simp [splitDotCh, h, splitDotCh_append_dot a b]
    · have ih := splitDotCh_append_dot a b
      rcases hs : splitDotCh a with _ | ⟨s, ss⟩
      · exact absurd hs (splitDotCh_ne_nil a)
      · simp only [List.cons_append, splitDotCh, if_neg h, List.append_eq]
        rw [ih, hs]
        simp

theorem joinDotCh_cons (s : List Char) (l : List (List Char)) (h : l ≠ []) :
    joinDotCh (s :: l) = s ++ '.' :: joinDotCh l := by
  cases l with
  | nil => exact absurd rfl h
  | cons t ts => rfl

theorem joinDotCh_splitDotCh : ∀ cs : List Char, joinDotCh (splitDotCh cs) = cs
  | [] => rfl
  | c :: rest => by
    have ih := joinDotCh_splitDotCh rest
    by_cases h : c = '.'
    · subst h
      rw [show splitDotCh ('.' :: rest) = [] :: splitDotCh rest from by simp [splitDotCh]]
      rw [joinDotCh_cons _ _ (splitDotCh_ne_nil rest), ih]
      simp
    · simp only [splitDotCh, if_neg h]
      rcases hs : splitDotCh rest with _ | ⟨s, ss⟩
      · exact absurd hs (splitDotCh_ne_nil rest)
      · rw [hs] at ih
        cases ss with
        | nil => simp only [joinDotCh] at ih ⊢; rw [ih]
        | cons t ts =>
          rw [joinDotCh_cons _ _ (by simp)] at ih
          rw [joinDotCh_cons _ _ (by simp), ← ih]
          simp

theorem joinDotCh_append : ∀ as bs : List (List Char), as ≠ [] → bs ≠ [] →
    joinDotCh (as ++ bs) = joinDotCh as ++ '.' :: joinDotCh bs
  | [], _, ha, _ => absurd rfl ha
  | [a], bs, _, hb => by
    rw [List.singleton_append, joinDotCh_cons _ _ hb]
    rfl
  | a :: a' :: as, bs, _, hb => by
    rw [List.cons_append, joinDotCh_cons _ _ (by simp),
        joinDotCh_cons _ _ (by simp),
        joinDotCh_append (a' :: as) bs (by simp) hb]
    simp

theorem chStarts_iff : ∀ pre s : List Char, chStarts pre s = true ↔ ∃ t, s = pre ++ t
  | [], s => by simp [chStarts]
  | a :: pre, [] => by simp [chStarts]
  | a :: pre, b :: s => by
    simp only [chStarts, Bool.and_eq_true, decide_eq_true_eq, chStarts_iff pre s,
      List.cons_append, List.cons.injEq]
    constructor
    · rintro ⟨rfl, t, rfl⟩; exact ⟨t, rfl, rfl⟩
    · rintro ⟨t, rfl, rfl⟩; exact ⟨rfl, t, rfl⟩

/-- The specification's ancestor relation on dotted paths: the
`'.'`-separated segments of `a` are a proper prefix of those of `b`. -/
def segAncestor (a b : String) : Prop :=
  ∃ r, r ≠ [] ∧ splitDotCh b.data = splitDotCh a.data ++ r

/-- Bridge between the code's string test (`b.startsWith(a + ".")`) and the
specification's segment rule (`a` is a proper `'.'`-segment ancestor of
`b`). -/
theorem jsStartsWith_dot_iff_segAncestor (b a : String) :
    jsStartsWith b (a ++ ".") = true ↔ segAncestor a b := by
  unfold jsStartsWith segAncestor
  rw [chStarts_iff]
  have hdata : (a ++ ".").data = a.data ++ ['.'] := by
    simp [String.data_append]
  rw [hdata]
  constructor
  · rintro ⟨t, ht⟩
    refine ⟨splitDotCh t, splitDotCh_ne_nil t, ?_⟩
    rw [ht, List.append_assoc, List.singleton_append, splitDotCh_append_dot]
  · rintro ⟨r, hr, hsplit⟩
    refine ⟨joinDotCh r, ?_⟩
    have := joinDotCh_splitDotCh b.data
    rw [hsplit, joinDotCh_append _ _ (splitDotCh_ne_nil a.data) hr,
        joinDotCh_splitDotCh] at this
    rw [← this, List.append_assoc, List.singleton_append]

/-- Claim C7: a callback registered with `watch(P, cb)` is invoked for a
commit exactly when some changed path `C` satisfies the three-way rule —
`C = P`, or `P` is a proper `'.'`-segment ancestor of `C`, or `C` is a
proper `'.'`-segment ancestor of `P`; in particular watching
`"document.pages"` fires when `"document.pages.0.blocks.1.content"`
changes, and watching `"document.pages.0.blocks.1.content"` fires when
`"document.pages"` is replaced wholesale. -/
theorem c7_watch_three_way_rule :
    (∀ (changedPaths : List String) (P : String),
      StateManager.watchHandlerFires [P] changedPaths = true
        ↔ ∃ C ∈ changedPaths, C = P ∨ segAncestor P C ∨ segAncestor C P)
    ∧ StateManager.watchHandlerFires ["document.pages"]
        ["document.pages.0.blocks.1.content"] = true
    ∧ StateManager.watchHandlerFires ["document.pages.0.blocks.1.content"]
        ["document.pages"] = true := by
  refine ⟨fun changedPaths P => ?_, by decide, by decide⟩
  unfold StateManager.watchHandlerFires StateManager.hasPathChanged
  simp only [List.any_cons, List.any_nil, Bool.or_false, List.any_eq_true,
    Bool.or_eq_true, decide_eq_true_eq, jsStartsWith_dot_iff_segAncestor, or_assoc]

/-! ### Claim C9: suggestion filtering -/

theorem char_toNat_ofNat (n : Nat) (h : n.isValidChar) : (Char.ofNat n).toNat = n := by
  unfold Char.ofNat
  simp [h]
  unfold Char.ofNatAux
  rfl

theorem lowerChar_idem (c : Char) : lowerChar (lowerChar c) = lowerChar c := by
  unfold lowerChar
  by_cases h : c.toNat ≥ 65 && c.toNat ≤ 90
  · rw [if_pos h]
    simp only [Bool.and_eq_true, decide_eq_true_eq] at h
    have hv : (c.toNat + 32).isValidChar := by
      left
      omega
    rw [char_toNat_ofNat _ hv]
    have hn : ¬ (c.toNat + 32 ≥ 65 && c.toNat + 32 ≤ 90) = true := by
      simp only [Bool.and_eq_true, decide_eq_true_eq]
      omega
    rw [if_neg hn]
  · rw [if_neg h, if_neg h]

theorem jsToLower_idem (q : String) : jsToLower (jsToLower q) = jsToLower q := by
  unfold jsToLower
  simp only [List.map_map]
  have hc : lowerChar ∘ lowerChar = lowerChar := funext lowerChar_idem
  rw [hc]

theorem jsToLower_eq_empty_iff (q : String) : jsToLower q = "" ↔ q = "" := by
  unfold jsToLower
  cases q with
  | mk l =>
    cases l with
    | nil => simp
    | cons c cs =>
      simp only [List.map_cons]
      constructor
      · intro h
        exact absurd (congrArg String.data h) (by simp)
      · intro h
        exact absurd (congrArg String.data h) (by simp)

/-- Claim C9: suggestion filtering is a stable, case-insensitive substring
filter over `label` and `description`: the empty query returns the whole
catalog in order; every result list is a sublist of the catalog (so catalog
order is preserved and no item is invented); lowering the query's case does
not change the result; and the query `"table"` returns exactly the four
table-kind items — no heading, column, or field item. -/
theorem c9_filter_items :
    MentionSystem.filterItems "" = MentionSystem.suggestions
    ∧ (∀ q, (MentionSystem.filterItems q).Sublist MentionSystem.suggestions)
    ∧ (∀ q, MentionSystem.filterItems (jsToLower q) = MentionSystem.filterItems q)
    ∧ MentionSystem.filterItems "table"
        = MentionSystem.suggestions.filter (fun it => it.type = "table")
    ∧ (MentionSystem.filterItems "table").map MentionSystem.Item.type
        = ["table", "table", "table", "table"]
    ∧ (MentionSystem.filterItems "table").map MentionSystem.Item.id
        = ["table", "table-2x2", "table-3x3", "table-4x4"] := by
  refine ⟨rfl, fun q => ?_, fun q => ?_, by decide, by decide, by decide⟩
  · unfold MentionSystem.filterItems
    by_cases h : q = ""
    · simp [h]
    · rw [if_neg h]
      exact List.filter_sublist _
  · unfold MentionSystem.filterItems
    by_cases h : q = ""
    · simp [h, jsToLower_eq_empty_iff]
    · rw [if_neg h, if_neg (fun hl => h ((jsToLower_eq_empty_iff q).mp hl))]
      rw [jsToLower_idem]

/-! ### Shape of StateManager states and history accessors -/

namespace Value

/-- Is the value an object? -/
def isObjB : Value → Bool
  | .vObj _ => true
  | _ => false

/-- Is the value an array? -/
def isArrB : Value → Bool
  | .vArr _ => true
  | _ => false

end Value

/-- The state's `history` property. -/
def histOf (v : Value) : Value := Value.getProp v "history"

/-- The state's `history.past` property. -/
def pastRaw (v : Value) : Value := Value.getProp (histOf v) "past"

/-- The state's `history.future` property. -/
def futRaw (v : Value) : Value := Value.getProp (histOf v) "future"

/-- The entries of `history.past` (empty for a non-array). -/
def pastL (v : Value) : List Value :=
  match pastRaw v with
  | .vArr l => l
  | _ => []

/-- The entries of `history.future` (empty for a non-array). -/
def futL (v : Value) : List Value :=
  match futRaw v with
  | .vArr l => l
  | _ => []

/-- Drop a key from a field list. -/
def removeField (fs : List (String × Value)) (k : String) : List (String × Value) :=
  fs.filter (fun e => e.1 ≠ k)

/-- Everything in the state except its `history` property: the `document` and
`ui` parts, i.e. the state "field-for-field" with history set aside. -/
def dataOf (v : Value) : Value :=
  match v with
  | .vObj fs => .vObj (removeField fs "history")
  | v => v

/-- A well-formed StateManager state: an object whose `history` property is an
object with array-valued `past` and `future`, containing no `undefined`
anywhere (so `Utils.deepClone` is the identity on it). -/
def shapeB (v : Value) : Bool :=
  Value.isObjB v && Value.isObjB (histOf v) && Value.isArrB (pastRaw v) &&
    Value.isArrB (futRaw v) && Value.noUndef v

theorem shapeB_intro (v : Value) (h1 : Value.isObjB v = true)
    (h2 : Value.isObjB (histOf v) = true) (h3 : Value.isArrB (pastRaw v) = true)
    (h4 : Value.isArrB (futRaw v) = true) (h5 : Value.noUndef v = true) :
    shapeB v = true := by
  simp [shapeB, h1, h2, h3, h4, h5]

theorem isObjB_iff (v : Value) : Value.isObjB v = true ↔ ∃ fs, v = .vObj fs := by
  cases v <;> simp [Value.isObjB]

theorem isArrB_iff (v : Value) : Value.isArrB v = true ↔ ∃ xs, v = .vArr xs := by
  cases v <;> simp [Value.isArrB]

theorem shapeB_obj (v : Value) (h : shapeB v = true) : ∃ fs, v = .vObj fs := by
  simp only [shapeB, Bool.and_eq_true] at h
  exact (isObjB_iff v).mp h.1.1.1.1

theorem shapeB_hist_obj (v : Value) (h : shapeB v = true) : ∃ hs, histOf v = .vObj hs := by
  simp only [shapeB, Bool.and_eq_true] at h
  exact (isObjB_iff _).mp h.1.1.1.2

theorem shapeB_pastRaw (v : Value) (h : shapeB v = true) : pastRaw v = .vArr (pastL v) := by
  simp only [shapeB, Bool.and_eq_true] at h
  obtain ⟨xs, hx⟩ := (isArrB_iff _).mp h.1.1.2
  rw [pastL, hx]

theorem shapeB_futRaw (v : Value) (h : shapeB v = true) : futRaw v = .vArr (futL v) := by
  simp only [shapeB, Bool.and_eq_true] at h
  obtain ⟨xs, hx⟩ := (isArrB_iff _).mp h.1.2
  rw [futL, hx]

theorem shapeB_noUndef (v : Value) (h : shapeB v = true) : Value.noUndef v = true := by
  simp only [shapeB, Bool.and_eq_true] at h
  exact h.2

theorem shapeB_noUndef_hist (v : Value) (h : shapeB v = true) :
    Value.noUndef (histOf v) = true := by
  obtain ⟨fs, hfs⟩ := shapeB_obj v h
  obtain ⟨hs, hh⟩ := shapeB_hist_obj v h
  have hnu := shapeB_noUndef v h
  have hh' : Value.getProp v "history" = .vObj hs := hh
  rw [hfs] at hnu hh'
  have hres := Value.noUndef_getProp_obj fs "history" hnu (.vObj hs) hh' rfl
  rw [show histOf v = Value.getProp v "history" from rfl, hfs, hh']
  exact hres

theorem shapeB_noUndefL_pastL (v : Value) (h : shapeB v = true) :
    Value.noUndefL (pastL v) = true := by
  obtain ⟨hs, hh⟩ := shapeB_hist_obj v h
  have hnu : Value.noUndef (.vObj hs) = true := by
    rw [← hh]; exact shapeB_noUndef_hist v h
  have hp : Value.getProp (.vObj hs) "past" = .vArr (pastL v) := by
    rw [← hh]; exact shapeB_pastRaw v h
  have hres := Value.noUndef_getProp_obj hs "past" hnu _ hp rfl
  simpa [Value.noUndef] using hres

theorem shapeB_noUndefL_futL (v : Value) (h : shapeB v = true) :
    Value.noUndefL (futL v) = true := by
  obtain ⟨hs, hh⟩ := shapeB_hist_obj v h
  have hnu : Value.noUndef (.vObj hs) = true := by
    rw [← hh]; exact shapeB_noUndef_hist v h
  have hp : Value.getProp (.vObj hs) "future" = .vArr (futL v) := by
    rw [← hh]; exact shapeB_futRaw v h
  have hres := Value.noUndef_getProp_obj hs "future" hnu _ hp rfl
  simpa [Value.noUndef] using hres

theorem removeField_setField_same (fs : List (String × Value)) (k : String) (w : Value) :
    removeField (Value.setField fs k w) k = removeField fs k := by
  induction fs with
  | nil => simp [Value.setField, removeField]
  | cons e fs ih =>
    obtain ⟨k0, v0⟩ := e
    by_cases h0 : k0 = k
    · subst h0
      simp [Value.setField, removeField, List.filter_cons]
    · simp only [Value.setField, if_neg h0, removeField, List.filter_cons, ne_eq,
        decide_not] at ih ⊢
      simp [h0, ih]

theorem dataOf_setProp_hist (fs : List (String × Value)) (w : Value) :
    dataOf (Value.setProp (.vObj fs) "history" w) = dataOf (.vObj fs) := by
  simp [Value.setProp, dataOf, removeField_setField_same]

/-! ### Overwriting one history field (the shape of undo/redo results) -/

/-- `x.history.<k> = L`, as `undo`/`redo` perform it on the restored
snapshot: `x` with its `history` object's field `k` replaced by the array
`L`. -/
def withHistField (x : Value) (k : String) (L : List Value) : Value :=
  Value.setProp x "history" (Value.setProp (histOf x) k (.vArr L))

theorem withHistField_histOf (x : Value) (fs : List (String × Value)) (hx : x = .vObj fs)
    (k : String) (L : List Value) :
    histOf (withHistField x k L) = Value.setProp (histOf x) k (.vArr L) := by
  subst hx
  exact Value.getProp_setProp_obj_same fs "history" _

theorem withHistField_dataOf (x : Value) (fs : List (String × Value)) (hx : x = .vObj fs)
    (k : String) (L : List Value) : dataOf (withHistField x k L) = dataOf x := by
  subst hx
  exact dataOf_setProp_hist fs _

theorem withHistField_isObjB (x : Value) (fs : List (String × Value)) (hx : x = .vObj fs)
    (k : String) (L : List Value) : Value.isObjB (withHistField x k L) = true := by
  subst hx
  rfl

theorem withHistField_noUndef (x : Value) (h : shapeB x = true) (k : String)
    (L : List Value) (hL : Value.noUndefL L = true) :
    Value.noUndef (withHistField x k L) = true := by
  obtain ⟨fs, hfs⟩ := shapeB_obj x h
  obtain ⟨hs, hh⟩ := shapeB_hist_obj x h
  have h1 : Value.noUndef (Value.setProp (histOf x) k (.vArr L)) = true := by
    rw [hh]
    exact Value.noUndef_setProp_obj hs k _
      (by rw [← hh]; exact shapeB_noUndef_hist x h) (by simpa [Value.noUndef] using hL)
  rw [hfs] at h1
  rw [withHistField, hfs]
  exact Value.noUndef_setProp_obj fs "history" _
    (by rw [← hfs]; exact shapeB_noUndef x h) h1

theorem withHistField_futRaw_same (x : Value) (h : shapeB x = true) (L : List Value) :
    futRaw (withHistField x "future" L) = .vArr L := by
  obtain ⟨fs, hfs⟩ := shapeB_obj x h
  obtain ⟨hs, hh⟩ := shapeB_hist_obj x h
  rw [futRaw, withHistField_histOf x fs hfs, hh]
  exact Value.getProp_setProp_obj_same hs "future" _

theorem withHistField_pastRaw_of_future (x : Value) (h : shapeB x = true) (L : List Value) :
    pastRaw (withHistField x "future" L) = pastRaw x := by
  obtain ⟨fs, hfs⟩ := shapeB_obj x h
  obtain ⟨hs, hh⟩ := shapeB_hist_obj x h
  rw [pastRaw, withHistField_histOf x fs hfs, hh,
    Value.getProp_setProp_obj_ne hs "future" "past" _ (by decide), pastRaw, hh]

theorem withHistField_pastRaw_same (x : Value) (h : shapeB x = true) (L : List Value) :
    pastRaw (withHistField x "past" L) = .vArr L := by
  obtain ⟨fs, hfs⟩ := shapeB_obj x h
  obtain ⟨hs, hh⟩ := shapeB_hist_obj x h
  rw [pastRaw, withHistField_histOf x fs hfs, hh]
  exact Value.getProp_setProp_obj_same hs "past" _

theorem withHistField_futRaw_of_past (x : Value) (h : shapeB x = true) (L : List Value) :
    futRaw (withHistField x "past" L) = futRaw x := by
  obtain ⟨fs, hfs⟩ := shapeB_obj x h
  obtain ⟨hs, hh⟩ := shapeB_hist_obj x h
  rw [futRaw, withHistField_histOf x fs hfs, hh,
    Value.getProp_setProp_obj_ne hs "past" "future" _ (by decide), futRaw, hh]

theorem withHistField_future_shapeB (x : Value) (h : shapeB x = true) (L : List Value)
    (hL : Value.noUndefL L = true) : shapeB (withHistField x "future" L) = true := by
  obtain ⟨fs, hfs⟩ := shapeB_obj x h
  refine shapeB_intro _ (withHistField_isObjB x fs hfs _ _) ?_ ?_ ?_
    (withHistField_noUndef x h _ L hL)
  · rw [withHistField_histOf x fs hfs]
    obtain ⟨hs, hh⟩ := shapeB_hist_obj x h
    rw [hh]
    rfl
  · rw [withHistField_pastRaw_of_future x h, shapeB_pastRaw x h]
    rfl
  · rw [withHistField_futRaw_same x h]
    rfl

theorem withHistField_past_shapeB (x : Value) (h : shapeB x = true) (L : List Value)
    (hL : Value.noUndefL L = true) : shapeB (withHistField x "past" L) = true := by
  obtain ⟨fs, hfs⟩ := shapeB_obj x h
  refine shapeB_intro _ (withHistField_isObjB x fs hfs _ _) ?_ ?_ ?_
    (withHistField_noUndef x h _ L hL)
  · rw [withHistField_histOf x fs hfs]
    obtain ⟨hs, hh⟩ := shapeB_hist_obj x h
    rw [hh]
    rfl
  · rw [withHistField_pastRaw_same x h]
    rfl
  · rw [withHistField_futRaw_of_past x h, shapeB_futRaw x h]
    rfl

theorem pastL_eq_of_pastRaw (v : Value) (l : List Value) (h : pastRaw v = .vArr l) :
    pastL v = l := by
  rw [pastL, h]

theorem futL_eq_of_futRaw (v : Value) (l : List Value) (h : futRaw v = .vArr l) :
    futL v = l := by
  rw [futL, h]

/-! ### Behaviour of undo and redo on well-formed states -/

theorem undo_char (t x : Value) (ps : List Value) (ht : shapeB t = true)
    (hx : shapeB x = true) (hp : pastL t = ps ++ [x]) :
    StateManager.undo t = some (withHistField x "future" (t :: futL t),
      [⟨"state:undo", []⟩]) := by
  obtain ⟨hs, hh⟩ := shapeB_hist_obj t ht
  obtain ⟨xs, hhx⟩ := shapeB_hist_obj x hx
  have hpr : Value.getProp (.vObj hs) "past" = .vArr (ps ++ [x]) := by
    rw [← hh, ← hp]
    exact shapeB_pastRaw t ht
  have hfr : Value.getProp (.vObj hs) "future" = .vArr (futL t) := by
    rw [← hh]
    exact shapeB_futRaw t ht
  have hcl : Value.jsonClean t = t := Value.jsonClean_noUndef t (shapeB_noUndef t ht)
  have hht : Value.getProp t "history" = .vObj hs := hh
  have hhx' : Value.getProp x "history" = .vObj xs := hhx
  simp only [StateManager.undo, hht, hpr, hfr, hcl, hhx', Value.nullish,
    List.getLast?_concat, withHistField, histOf]
  rfl

theorem redo_char (t y : Value) (ys : List Value) (ht : shapeB t = true)
    (hy : shapeB y = true) (hf : futL t = y :: ys) :
    StateManager.redo t = some (withHistField y "past" (pastL t ++ [t]),
      [⟨"state:redo", []⟩]) := by
  obtain ⟨hs, hh⟩ := shapeB_hist_obj t ht
  obtain ⟨years, hhy⟩ := shapeB_hist_obj y hy
  have hpr : Value.getProp (.vObj hs) "past" = .vArr (pastL t) := by
    rw [← hh]
    exact shapeB_pastRaw t ht
  have hfr : Value.getProp (.vObj hs) "future" = .vArr (y :: ys) := by
    rw [← hh, ← hf]
    exact shapeB_futRaw t ht
  have hcl : Value.jsonClean t = t := Value.jsonClean_noUndef t (shapeB_noUndef t ht)
  have hht : Value.getProp t "history" = .vObj hs := hh
  have hhy' : Value.getProp y "history" = .vObj years := hhy
  simp only [StateManager.redo, hht, hpr, hfr, hcl, hhy', Value.nullish,
    withHistField, histOf]
  rfl

/-! ### The undo-depth invariant and the undo/redo round trip -/

/-- `GoodUndoN k t`: `t` is a well-formed state whose `history.past` chain
supports at least `k` consecutive `undo` calls — its past ends in a
snapshot which itself supports `k - 1`, and so on. -/
inductive GoodUndoN : Nat → Value → Prop where
  | zero (t : Value) (ht : shapeB t = true) : GoodUndoN 0 t
  | succ (t x : Value) (ps : List Value) (k : Nat) (ht : shapeB t = true)
      (hp : pastL t = ps ++ [x]) (hx : GoodUndoN k x) : GoodUndoN (k + 1) t

theorem GoodUndoN.shape {k : Nat} {t : Value} (h : GoodUndoN k t) : shapeB t = true := by
  cases h with
  | zero _ ht => exact ht
  | succ _ _ _ _ ht _ _ => exact ht

theorem GoodUndoN.transfer {k : Nat} {x : Value} (h : GoodUndoN k x) (u : Value)
    (hu : shapeB u = true) (hpast : pastL u = pastL x) : GoodUndoN k u := by
  cases h with
  | zero _ _ => exact .zero u hu
  | succ _ x0 ps k0 _ hp hx0 => exact .succ u x0 ps k0 hu (by rw [hpast, hp]) hx0

theorem iterOpt_succ_right (k : Nat) (f : Value → Option Value) :
    ∀ s, StateManager.iterOpt (k + 1) f s = (StateManager.iterOpt k f s).bind f := by
  induction k with
  | zero =>
    intro s
    simp [StateManager.iterOpt]
  | succ k ih =>
    intro s
    show (f s).bind (StateManager.iterOpt (k + 1) f)
      = ((f s).bind (StateManager.iterOpt k f)).bind f
    rcases hf : f s with _ | t
    · rfl
    · simp only [Option.some_bind]
      exact ih t

/-- The undo/redo round trip: on a state supporting `k` undos, `undo` applied
`k` times followed by `redo` applied `k` times succeeds and restores the
non-history fields (`dataOf`) and the future list exactly. -/
theorem undo_redo_round_trip : ∀ (k : Nat) (t : Value), GoodUndoN k t →
    ∃ u r, StateManager.iterOpt k StateManager.undoVal t = some u ∧
      StateManager.iterOpt k StateManager.redoVal u = some r ∧
      shapeB r = true ∧ dataOf r = dataOf t ∧ futL r = futL t := by
  intro k
  induction k with
  | zero =>
    intro t hg
    exact ⟨t, t, rfl, rfl, hg.shape, rfl, rfl⟩
  | succ k ih =>
    intro t hg
    rcases hg with _ | ⟨t, x, ps, k, ht, hp, hx⟩
    have hxsh : shapeB x = true := hx.shape
    obtain ⟨xfs, hxfs⟩ := shapeB_obj x hxsh
    obtain ⟨tfs, htfs⟩ := shapeB_obj t ht
    have hL1 : Value.noUndefL (t :: futL t) = true := by
      simp only [Value.noUndefL, Bool.and_eq_true]
      exact ⟨shapeB_noUndef t ht, shapeB_noUndefL_futL t ht⟩
    have hu1 : StateManager.undoVal t = some (withHistField x "future" (t :: futL t)) := by
      rw [StateManager.undoVal, undo_char t x ps ht hxsh hp]
      rfl
    have ht1sh : shapeB (withHistField x "future" (t :: futL t)) = true :=
      withHistField_future_shapeB x hxsh _ hL1
    have ht1past : pastL (withHistField x "future" (t :: futL t)) = pastL x :=
      pastL_eq_of_pastRaw _ _ (by
        rw [withHistField_pastRaw_of_future x hxsh]
        exact shapeB_pastRaw x hxsh)
    have ht1fut : futL (withHistField x "future" (t :: futL t)) = t :: futL t :=
      futL_eq_of_futRaw _ _ (withHistField_futRaw_same x hxsh _)
    have hg1 : GoodUndoN k (withHistField x "future" (t :: futL t)) :=
      hx.transfer _ ht1sh ht1past
    obtain ⟨u, r1, hu, hr1, hr1sh, hr1data, hr1fut⟩ := ih _ hg1
    have hit : StateManager.iterOpt (k + 1) StateManager.undoVal t = some u := by
      show (StateManager.undoVal t).bind (StateManager.iterOpt k StateManager.undoVal)
        = some u
      rw [hu1, Option.some_bind, hu]
    have hfr1 : futL r1 = t :: futL t := by rw [hr1fut, ht1fut]
    have hred : StateManager.redoVal r1
        = some (withHistField t "past" (pastL r1 ++ [r1])) := by
      rw [StateManager.redoVal, redo_char r1 t (futL t) hr1sh ht hfr1]
      rfl
    have hL2 : Value.noUndefL (pastL r1 ++ [r1]) = true := by
      refine Value.noUndefL_append _ _ (shapeB_noUndefL_pastL r1 hr1sh) ?_
      simp [Value.noUndefL, shapeB_noUndef r1 hr1sh]
    refine ⟨u, withHistField t "past" (pastL r1 ++ [r1]), hit, ?_, ?_, ?_, ?_⟩
    · rw [iterOpt_succ_right, hr1, Option.some_bind, hred]
    · exact withHistField_past_shapeB t ht _ hL2
    · rw [withHistField_dataOf t tfs htfs]
    · refine (futL_eq_of_futRaw _ _ ?_)
      rw [withHistField_futRaw_of_past t ht, shapeB_futRaw t ht]

/-! ### Behaviour of a single update commit -/

/-- The capped history push of `update`: append the snapshot, then drop the
oldest entry if the past now exceeds 50 entries. -/
def capPush (l : List Value) (x : Value) : List Value :=
  let q := l ++ [x]
  if q.length > 50 then q.tail else q

theorem capPush_concat (l : List Value) (x : Value) : ∃ q, capPush l x = q ++ [x] := by
  unfold capPush
  cases l with
  | nil => exact ⟨[], by simp⟩
  | cons h t =>
    by_cases hl : ((h :: t) ++ [x]).length > 50
    · refine ⟨t, ?_⟩
      rw [if_pos hl]
      rfl
    · refine ⟨h :: t, ?_⟩
      rw [if_neg hl]

theorem splitDot_ne_nil (p : String) : splitDot p ≠ [] := by
  unfold splitDot
  intro h
  exact splitDotCh_ne_nil p.data (List.map_eq_nil_iff.mp h)

theorem setPathL_obj (fs : List (String × Value)) (seg : String) (rest : List String)
    (v st1 : Value)
    (h : StateManager.setValueAtPathL (.vObj fs) (seg :: rest) v = some st1) :
    (∃ gs, st1 = .vObj gs) ∧
      ∀ k, k ≠ seg → Value.getProp st1 k = Value.getProp (.vObj fs) k := by
  cases rest with
  | nil =>
    have heq : StateManager.setValueAtPathL (.vObj fs) [seg] v
        = some (Value.setProp (.vObj fs) seg v) := rfl
    rw [heq] at h
    cases h
    exact ⟨⟨_, rfl⟩, fun k hk =>
      Value.getProp_setProp_obj_ne fs seg k v (fun he => hk he.symm)⟩
  | cons r rs =>
    have heq : StateManager.setValueAtPathL (.vObj fs) (seg :: r :: rs) v
        = (match StateManager.setValueAtPathL
              (Value.getProp (if Value.truthy (Value.getProp (.vObj fs) seg)
                 then (Value.vObj fs)
                 else Value.setProp (.vObj fs) seg (.vObj [])) seg) (r :: rs) v with
           | none => none
           | some sub => some (Value.setProp
               (if Value.truthy (Value.getProp (.vObj fs) seg) then (Value.vObj fs)
                else Value.setProp (.vObj fs) seg (.vObj [])) seg sub)) := rfl
    rw [heq] at h
    rcases hsub : StateManager.setValueAtPathL
        (Value.getProp (if Value.truthy (Value.getProp (.vObj fs) seg)
           then (Value.vObj fs)
           else Value.setProp (.vObj fs) seg (.vObj [])) seg) (r :: rs) v with _ | sub
    · rw [hsub] at h
      cases h
    · rw [hsub] at h
      cases h
      by_cases htr : Value.truthy (Value.getProp (.vObj fs) seg)
      · rw [if_pos htr]
        exact ⟨⟨_, rfl⟩, fun k hk =>
          Value.getProp_setProp_obj_ne fs seg k sub (fun he => hk he.symm)⟩
      · rw [if_neg htr]
        refine ⟨⟨_, rfl⟩, fun k hk => ?_⟩
        show Value.getProp
          (Value.setProp (.vObj (Value.setField fs seg (.vObj []))) seg sub) k = _
        rw [Value.getProp_setProp_obj_ne _ seg k sub (fun he => hk he.symm)]
        show Value.getProp (Value.setProp (.vObj fs) seg (.vObj [])) k = _
        exact Value.getProp_setProp_obj_ne fs seg k _ (fun he => hk he.symm)

theorem getProp_hist2_past (hhs : List (String × Value)) (P E : Value) :
    Value.getProp (Value.setProp (Value.setProp (.vObj hhs) "past" P) "future" E) "past"
      = P := by
  rw [show Value.setProp (.vObj hhs) "past" P
        = Value.vObj (Value.setField hhs "past" P) from rfl,
      Value.getProp_setProp_obj_ne _ "future" "past" _ (by decide)]
  simp [Value.getProp, Value.lookupF_setField_same]

theorem getProp_hist2_future (hhs : List (String × Value)) (P E : Value) :
    Value.getProp (Value.setProp (Value.setProp (.vObj hhs) "past" P) "future" E) "future"
      = E := by
  rw [show Value.setProp (.vObj hhs) "past" P
        = Value.vObj (Value.setField hhs "past" P) from rfl]
  exact Value.getProp_setProp_obj_same _ "future" E

/-- What one successful single-path `update` commit does to a well-formed
state whose committed path does not start at the `history` key: the past
receives the pre-commit snapshot (capped at 50), the future is cleared, the
state stays an object with object `history` and array `past`/`future`, and
exactly one `state:changed` event carrying the path is emitted. -/
theorem update1_char (s : Value) (p : String) (v : Value) (s1 : Value)
    (evs : List EmitRec) (hs : shapeB s = true)
    (hhd : (splitDot p).head? ≠ some "history")
    (h : StateManager.update1 s p v = some (s1, evs)) :
    pastL s1 = capPush (pastL s) s ∧ futL s1 = [] ∧
      Value.isObjB s1 = true ∧ Value.isObjB (histOf s1) = true ∧
      Value.isArrB (pastRaw s1) = true ∧ Value.isArrB (futRaw s1) = true ∧
      evs = [⟨"state:changed", [p]⟩] := by
  obtain ⟨fs, hfs⟩ := shapeB_obj s hs
  obtain ⟨hhs, hhh⟩ := shapeB_hist_obj s hs
  rcases hsp : splitDot p with _ | ⟨seg, rest⟩
  · exact absurd hsp (splitDot_ne_nil p)
  have hseg : seg ≠ "history" := by
    rw [hsp] at hhd
    simpa using hhd
  have hiu : Value.isUndef s = false := by rw [hfs]; rfl
  have hcl : Value.jsonClean s = s := Value.jsonClean_noUndef s (shapeB_noUndef s hs)
  unfold StateManager.update1 at h
  rw [show StateManager.deepCloneE s = .ok s from by
        unfold StateManager.deepCloneE; rw [hiu, hcl]; rfl] at h
  rcases hset : StateManager.setValueAtPath s p v with _ | st1
  · rw [hset] at h
    cases h
  rw [hset] at h
  unfold StateManager.setValueAtPath at hset
  rw [hsp, hfs] at hset
  obtain ⟨⟨gs, hgs⟩, hpres⟩ := setPathL_obj fs seg rest v st1 hset
  have hhist1 : Value.getProp st1 "history" = .vObj hhs := by
    rw [hpres "history" (fun he => hseg he.symm), ← hfs]
    exact hhh
  unfold StateManager.pushHistory at h
  simp only [List.isEmpty, hhist1] at h
  rw [show Value.getProp (Value.vObj hhs) "past" = pastRaw s from by
        rw [pastRaw, hhh]] at h
  rw [shapeB_pastRaw s hs] at h
  simp only [List.append_eq] at h
  cases h
  have hh1 : histOf (Value.setProp st1 "history"
      (Value.setProp (Value.setProp (.vObj hhs) "past"
        (.vArr (if (pastL s ++ [s]).length > 50 then (pastL s ++ [s]).tail
                else pastL s ++ [s]))) "future" (.vArr [])))
      = Value.setProp (Value.setProp (.vObj hhs) "past"
        (.vArr (if (pastL s ++ [s]).length > 50 then (pastL s ++ [s]).tail
                else pastL s ++ [s]))) "future" (.vArr []) := by
    rw [histOf, hgs]
    exact Value.getProp_setProp_obj_same gs "history" _
  refine ⟨?_, ?_, ?_, ?_, ?_, ?_, rfl⟩
  · rw [pastL, pastRaw, hh1, getProp_hist2_past]
    rfl
  · rw [futL, futRaw, hh1, getProp_hist2_future]
  · rw [hgs]
    rfl
  · rw [hh1]
    rw [show Value.setProp (.vObj hhs) "past"
          (.vArr (if (pastL s ++ [s]).length > 50 then (pastL s ++ [s]).tail
                  else pastL s ++ [s]))
        = Value.vObj (Value.setField hhs "past" _) from rfl]
    rfl
  · rw [pastRaw, hh1, getProp_hist2_past]
    rfl
  · rw [futRaw, hh1, getProp_hist2_future]
    rfl

/-! ### Clean runs of commits -/

/-- A run of single-path `update` commits in which every commit succeeds,
leaves no `undefined` in the state, and does not address the `history`
subtree. -/
inductive CleanRun : Value → List (String × Value) → Prop where
  | nil (s : Value) : CleanRun s []
  | cons (s s1 : Value) (p : String) (v : Value) (cs : List (String × Value))
      (evs : List EmitRec)
      (hstep : StateManager.update1 s p v = some (s1, evs))
      (hnu : Value.noUndef s1 = true)
      (hhd : (splitDot p).head? ≠ some "history")
      (hrest : CleanRun s1 cs) : CleanRun s ((p, v) :: cs)

/-- Along a clean run every commit deepens the undo chain by one: after the
`n` commits the final state supports `n` more undos than the start did. -/
theorem goodRun : ∀ (cs : List (String × Value)) (s : Value) (k : Nat),
    shapeB s = true → GoodUndoN k s → CleanRun s cs →
    ∀ A, StateManager.runCommits s cs = some A →
      GoodUndoN (k + cs.length) A ∧ shapeB A = true := by
  intro cs
  induction cs with
  | nil =>
    intro s k hs hg _ A hA
    unfold StateManager.runCommits StateManager.runAux at hA
    simp at hA
    rw [← hA]
    exact ⟨by simpa using hg, hs⟩
  | cons c cs ih =>
    intro s k hs hg hclean A hA
    obtain ⟨p, v⟩ := c
    rcases hclean with _ | ⟨s, s1, p, v, cs, evs, hstep, hnu, hhd, hrest⟩
    obtain ⟨hpast1, hfut1, ho1, ho2, ha1, ha2, _⟩ := update1_char s p v s1 evs hs hhd hstep
    have hs1 : shapeB s1 = true := shapeB_intro s1 ho1 ho2 ha1 ha2 hnu
    obtain ⟨q, hq⟩ := capPush_concat (pastL s) s
    have hg1 : GoodUndoN (k + 1) s1 := .succ s1 s q k hs1 (by rw [hpast1, hq]) hg
    have hred : StateManager.runAux s ((p, v) :: cs)
        = (match StateManager.runAux s1 cs with
           | none => none
           | some (a, pres) => some (a, s :: pres)) := by
      show (match StateManager.update1 s p v with
            | none => none
            | some (s1, _) =>
              match StateManager.runAux s1 cs with
              | none => none
              | some (a, pres) => some (a, s :: pres)) = _
      rw [hstep]
    have hA' : StateManager.runCommits s1 cs = some A := by
      unfold StateManager.runCommits at hA ⊢
      rw [hred] at hA
      rcases hrun : StateManager.runAux s1 cs with _ | ⟨a, pres⟩
      · rw [hrun] at hA
        simp at hA
      · rw [hrun] at hA
        simp at hA
        simp [hrun, hA]
    have := ih s1 (k + 1) hs1 hg1 hrest A hA'
    refine ⟨?_, this.2⟩
    have harith : k + ((p, v) :: cs).length = k + 1 + cs.length := by
      simp [List.length_cons]
      omega
    rw [harith]
    exact this.1

/-! ### Claim C1 -/

/-- Claim C1 as amended: for a run of `n` successful commits from a
well-formed state, `undo` applied `n` times then `redo` applied `n` times
succeeds and reproduces, field-for-field, every part of the state except
its `history` property (the claim's original "field-for-field on the whole
state, history included" fails — see the counterexample — because the
snapshots stored inside `history.past` re-enter history with different
nested `history` fields of their own). -/
theorem c1_undo_redo_restores_non_history (s0 : Value) (cs : List (String × Value))
    (A : Value) (h0 : shapeB s0 = true) (hclean : CleanRun s0 cs)
    (hA : StateManager.runCommits s0 cs = some A) :
    ∃ u r, StateManager.iterOpt cs.length StateManager.undoVal A = some u ∧
      StateManager.iterOpt cs.length StateManager.redoVal u = some r ∧
      dataOf r = dataOf A := by
  obtain ⟨hg, hsh⟩ := goodRun cs s0 0 h0 (.zero s0 h0) hclean A hA
  rw [Nat.zero_add] at hg
  obtain ⟨u, r, h1, h2, _, hdata, _⟩ := undo_redo_round_trip cs.length A hg
  exact ⟨u, r, h1, h2, hdata⟩

/-- A minimal well-formed state for the undo/redo counterexample. -/
def ex0 : Value :=
  .vObj [("doc", .vNum 0),
         ("history", .vObj [("past", .vArr []), ("future", .vArr [])])]

/-- The state after committing `doc := 1` on `ex0`. -/
def exA : Value :=
  .vObj [("doc", .vNum 1),
         ("history", .vObj [("past", .vArr [ex0]), ("future", .vArr [])])]

/-- The state after undoing that commit. -/
def exU : Value :=
  .vObj [("doc", .vNum 0),
         ("history", .vObj [("past", .vArr []), ("future", .vArr [exA])])]

/-- The state after redoing it again. -/
def exR : Value :=
  .vObj [("doc", .vNum 1),
         ("history", .vObj [("past", .vArr [exU]), ("future", .vArr [])])]

/-- Claim C1 counterexample: after one commit (`n = 1`), one `undo` followed
by one `redo` does not reproduce the post-commit state field-for-field: the
`history.past` entry of the rebuilt state is the undo-time snapshot (whose
own `history.future` holds the post-commit state) instead of the original
pre-commit snapshot (whose `history.future` is empty). -/
theorem c1_undo_redo_counterexample :
    StateManager.runCommits ex0 [("doc", Value.vNum 1)] = some exA
    ∧ StateManager.undoVal exA = some exU
    ∧ StateManager.redoVal exU = some exR
    ∧ exR ≠ exA := by
  refine ⟨rfl, rfl, rfl, fun h => ?_⟩
  have h1 : StateManager.getValueAtPath exR "history.past.0.history.future"
      = .vArr [exA] := rfl
  rw [h] at h1
  have h2 : StateManager.getValueAtPath exA "history.past.0.history.future"
      = .vArr [] := rfl
  rw [h2] at h1
  simp at h1

/-- The result of the single commit used by the C1 witness. -/
def wc1res : Value × List EmitRec :=
  (StateManager.update1 (mkInitialState "d1" "p1" "b1") "document.name"
    (Value.vStr "Renamed")).getD (Value.vUndef, [])

/-- Witness for the amended C1: one concrete commit on the initial state,
then one undo and one redo, restores the non-history fields exactly. -/
theorem c1_undo_redo_restores_non_history_witness :
    ∃ u r, StateManager.iterOpt 1 StateManager.undoVal wc1res.1 = some u ∧
      StateManager.iterOpt 1 StateManager.redoVal u = some r ∧
      dataOf r = dataOf wc1res.1 := by
  refine c1_undo_redo_restores_non_history (mkInitialState "d1" "p1" "b1")
    [("document.name", Value.vStr "Renamed")] wc1res.1 (by decide) ?_ rfl
  exact CleanRun.cons _ _ _ _ _ wc1res.2 rfl (by decide) (by decide) (.nil _)

/-! ### Claim C5: the history cap -/

/-- The last `n` entries of a list. -/
def lastN (n : Nat) (l : List Value) : List Value :=
  l.drop (l.length - n)

theorem lastN_absorb (n : Nat) (a b : List Value) :
    lastN n (lastN n a ++ b) = lastN n (a ++ b) := by
  unfold lastN
  rw [List.length_append, List.length_append, List.length_drop,
      List.drop_append_eq_append_drop, List.drop_append_eq_append_drop, List.drop_drop,
      List.length_drop]
  have e1 : a.length - n + (a.length - (a.length - n) + b.length - n)
      = a.length + b.length - n := by omega
  have e2 : a.length - (a.length - n) + b.length - n - (a.length - (a.length - n))
      = a.length + b.length - n - a.length := by omega
  rw [e1, e2]

theorem capPush_lastN (l : List Value) (x : Value) (h : l.length ≤ 50) :
    capPush l x = lastN 50 (l ++ [x]) ∧ (capPush l x).length ≤ 50 := by
  unfold capPush lastN
  by_cases hl : (l ++ [x]).length > 50
  · rw [if_pos hl]
    have hlen : (l ++ [x]).length = 51 := by
      simp only [List.length_append, List.length_singleton] at hl ⊢
      omega
    constructor
    · rw [← List.drop_one, hlen]
    · rw [List.length_tail, hlen]
  · rw [if_neg hl]
    constructor
    · rw [show (l ++ [x]).length - 50 = 0 from by
        simp only [List.length_append, List.length_singleton] at hl ⊢
        omega]
      rfl
    · simp only [List.length_append, List.length_singleton] at hl ⊢
      omega

/-- Past evolution along a clean run: the final past is the last 50 of the
initial past followed by the pre-commit snapshots, which are recorded one
per commit, in order. -/
theorem runPast : ∀ (cs : List (String × Value)) (s : Value),
    shapeB s = true → CleanRun s cs → (pastL s).length ≤ 50 →
    ∀ A pres, StateManager.runAux s cs = some (A, pres) →
      pastL A = lastN 50 (pastL s ++ pres) ∧ (pastL A).length ≤ 50 ∧
        pres.length = cs.length ∧ shapeB A = true := by
  intro cs
  induction cs with
  | nil =>
    intro s hs _ hlen A pres hrun
    unfold StateManager.runAux at hrun
    cases hrun
    refine ⟨?_, hlen, rfl, hs⟩
    unfold lastN
    rw [List.append_nil, show (pastL s).length - 50 = 0 from by omega]
    rfl
  | cons c cs ih =>
    intro s hs hclean hlen A pres hrun
    obtain ⟨p, v⟩ := c
    rcases hclean with _ | ⟨s, s1, p, v, cs, evs, hstep, hnu, hhd, hrest⟩
    obtain ⟨hpast1, hfut1, ho1, ho2, ha1, ha2, _⟩ := update1_char s p v s1 evs hs hhd hstep
    have hs1 : shapeB s1 = true := shapeB_intro s1 ho1 ho2 ha1 ha2 hnu
    obtain ⟨hcap, hcaplen⟩ := capPush_lastN (pastL s) s hlen
    have hlen1 : (pastL s1).length ≤ 50 := by rw [hpast1]; exact hcaplen
    have hred : StateManager.runAux s ((p, v) :: cs)
        = (match StateManager.runAux s1 cs with
           | none => none
           | some (a, pres) => some (a, s :: pres)) := by
      show (match StateManager.update1 s p v with
            | none => none
            | some (s1, _) =>
              match StateManager.runAux s1 cs with
              | none => none
              | some (a, pres) => some (a, s :: pres)) = _
      rw [hstep]
    rw [hred] at hrun
    rcases hrun2 : StateManager.runAux s1 cs with _ | ⟨a, pres2⟩
    · rw [hrun2] at hrun
      cases hrun
    · rw [hrun2] at hrun
      simp only [Option.some.injEq, Prod.mk.injEq] at hrun
      obtain ⟨rfl, rfl⟩ := hrun
      obtain ⟨ih1, ih2, ih3, ih4⟩ := ih s1 hs1 hrest hlen1 _ _ hrun2
      refine ⟨?_, ih2, ?_, ih4⟩
      · rw [ih1, hpast1, hcap, lastN_absorb]
        congr 1
        simp
      · simp [ih3]

/-- Claim C5: starting from empty history, 60 successful commits (each
changing one path) leave exactly 50 entries in `past`, and those entries
are the 50 most recent pre-commit snapshots in chronological order
(`pres` is the list of all 60 pre-commit states, in order). -/
theorem c5_sixty_commits_leave_fifty (s0 : Value) (cs : List (String × Value))
    (A : Value) (pres : List Value) (h0 : shapeB s0 = true) (hp0 : pastL s0 = [])
    (hlen : cs.length = 60) (hclean : CleanRun s0 cs)
    (hrun : StateManager.runAux s0 cs = some (A, pres)) :
    (pastL A).length = 50 ∧ pastL A = pres.drop 10 ∧ pres.length = 60 := by
  obtain ⟨h1, _, h3, _⟩ := runPast cs s0 h0 hclean (by rw [hp0]; simp) A pres hrun
  rw [hp0, List.nil_append] at h1
  rw [hlen] at h3
  unfold lastN at h1
  rw [h3] at h1
  norm_num at h1
  refine ⟨?_, h1, h3⟩
  rw [h1, List.length_drop, h3]

theorem noUndefL_tail (l : List Value) (h : Value.noUndefL l = true) :
    Value.noUndefL l.tail = true := by
  cases l with
  | nil => exact h
  | cons x xs =>
    simp only [Value.noUndefL, Bool.and_eq_true] at h
    exact h.2

/-- A single-segment commit on a well-formed state always succeeds and leaves
no `undefined` behind. -/
theorem update1_single_seg (s : Value) (p seg : String) (v : Value)
    (hs : shapeB s = true) (hsp : splitDot p = [seg]) (hseg : seg ≠ "history")
    (hv : Value.noUndef v = true) :
    ∃ s1 evs, StateManager.update1 s p v = some (s1, evs) ∧
      Value.noUndef s1 = true := by
  obtain ⟨fs, hfs⟩ := shapeB_obj s hs
  obtain ⟨hhs, hhh⟩ := shapeB_hist_obj s hs
  have hiu : Value.isUndef s = false := by rw [hfs]; rfl
  have hcl : Value.jsonClean s = s := Value.jsonClean_noUndef s (shapeB_noUndef s hs)
  have hclone : StateManager.deepCloneE s = .ok s := by
    unfold StateManager.deepCloneE
    rw [hiu, hcl]
    simp
  have hst1 : StateManager.setValueAtPath s p v = some (Value.setProp s seg v) := by
    unfold StateManager.setValueAtPath
    rw [hsp, hfs]
    rfl
  have hst1nu : Value.noUndef (Value.setProp s seg v) = true := by
    rw [hfs]
    exact Value.noUndef_setProp_obj fs seg v (by rw [← hfs]; exact shapeB_noUndef s hs) hv
  have hhist1 : Value.getProp (Value.setProp s seg v) "history" = .vObj hhs := by
    rw [hfs, Value.getProp_setProp_obj_ne fs seg "history" v hseg, ← hfs]
    exact hhh
  have hpr : Value.getProp (.vObj hhs) "past" = .vArr (pastL s) := by
    rw [← hhh]
    exact shapeB_pastRaw s hs
  have hnoP : Value.noUndefL
      (if (pastL s ++ [s]).length > 50 then (pastL s ++ [s]).tail
       else pastL s ++ [s]) = true := by
    have hbase : Value.noUndefL (pastL s ++ [s]) = true :=
      Value.noUndefL_append _ _ (shapeB_noUndefL_pastL s hs)
        (by simp [Value.noUndefL, shapeB_noUndef s hs])
    by_cases hc : (pastL s ++ [s]).length > 50
    · rw [if_pos hc]
      exact noUndefL_tail _ hbase
    · rw [if_neg hc]
      exact hbase
  have hpush : StateManager.pushHistory (Value.setProp s seg v) s [p]
      = some (Value.setProp (Value.setProp s seg v) "history"
          (Value.setProp (Value.setProp (.vObj hhs) "past"
            (.vArr (if (pastL s ++ [s]).length > 50 then (pastL s ++ [s]).tail
                    else pastL s ++ [s]))) "future" (.vArr [])),
          [⟨"state:changed", [p]⟩]) := by
    unfold StateManager.pushHistory
    rw [hhist1]
    simp only [hpr, List.append_eq, List.isEmpty]
    rfl
  have hhist1nu : Value.noUndef (Value.setProp (Value.setProp (.vObj hhs) "past"
      (.vArr (if (pastL s ++ [s]).length > 50 then (pastL s ++ [s]).tail
              else pastL s ++ [s]))) "future" (.vArr [])) = true := by
    have hinner : Value.noUndef (Value.setProp (.vObj hhs) "past"
        (.vArr (if (pastL s ++ [s]).length > 50 then (pastL s ++ [s]).tail
                else pastL s ++ [s]))) = true := by
      refine Value.noUndef_setProp_obj hhs "past" _ ?_ (by simpa [Value.noUndef] using hnoP)
      rw [← hhh]
      exact shapeB_noUndef_hist s hs
    exact Value.noUndef_setProp_obj _ "future" _ hinner rfl
  have hobj : Value.setProp s seg v = .vObj (Value.setField fs seg v) := by
    rw [hfs]
    rfl
  refine ⟨Value.setProp (Value.setProp s seg v) "history"
      (Value.setProp (Value.setProp (.vObj hhs) "past"
        (.vArr (if (pastL s ++ [s]).length > 50 then (pastL s ++ [s]).tail
                else pastL s ++ [s]))) "future" (.vArr [])),
    [⟨"state:changed", [p]⟩], ?_, ?_⟩
  · unfold StateManager.update1
    rw [hclone, hst1]
    exact hpush
  · rw [hobj]
    refine Value.noUndef_setProp_obj _ "history" _ ?_ hhist1nu
    rw [← hobj]
    exact hst1nu

/-- Commits whose path is a single segment other than `history` and whose
value holds no `undefined`. -/
def simpleCommitB (pv : String × Value) : Bool :=
  decide ((splitDot pv.1).length = 1)
    && !(decide ((splitDot pv.1).head? = some "history"))
    && Value.noUndef pv.2

/-- A run of single-segment commits from a well-formed state always succeeds
and is clean. -/
theorem simpleRun : ∀ (cs : List (String × Value)) (s : Value),
    shapeB s = true → cs.all simpleCommitB = true →
    ∃ A pres, StateManager.runAux s cs = some (A, pres) ∧ CleanRun s cs := by
  intro cs
  induction cs with
  | nil =>
    intro s _ _
    exact ⟨s, [], rfl, .nil s⟩
  | cons c cs ih =>
    intro s hs hall
    obtain ⟨p, v⟩ := c
    simp only [List.all_cons, Bool.and_eq_true] at hall
    obtain ⟨hc, hall'⟩ := hall
    simp only [simpleCommitB, Bool.and_eq_true, Bool.not_eq_true', decide_eq_true_eq,
      decide_eq_false_iff_not] at hc
    obtain ⟨⟨hlen1, hnothist⟩, hv⟩ := hc
    obtain ⟨seg, hsp⟩ := List.length_eq_one.mp hlen1
    have hseg : seg ≠ "history" := by
      intro he
      rw [hsp, he] at hnothist
      exact hnothist rfl
    obtain ⟨s1, evs, hstep, hnu⟩ := update1_single_seg s p seg v hs hsp hseg hv
    have hhd : (splitDot p).head? ≠ some "history" := by
      rw [hsp]
      simpa using hseg
    obtain ⟨_, _, ho1, ho2, ha1, ha2, _⟩ := update1_char s p v s1 evs hs hhd hstep
    have hs1 : shapeB s1 = true := shapeB_intro s1 ho1 ho2 ha1 ha2 hnu
    obtain ⟨A, pres, hrun, hclean⟩ := ih s1 hs1 hall'
    refine ⟨A, s :: pres, ?_, .cons s s1 p v cs evs hstep hnu hhd hclean⟩
    show (match StateManager.update1 s p v with
          | none => none
          | some (s1, _) =>
            match StateManager.runAux s1 cs with
            | none => none
            | some (a, pr) => some (a, s :: pr)) = _
    rw [hstep]
    simp [hrun]

/-- Starting state for the C5 witness. -/
def s5start : Value :=
  .vObj [("doc", .vNum 0),
         ("history", .vObj [("past", .vArr []), ("future", .vArr [])])]

/-- The 60 commits of the C5 witness. -/
def wcs5 : List (String × Value) :=
  (List.range 60).map (fun i => ("doc", Value.vNum i))

/-- Witness for C5: a concrete run of 60 single-path commits from an empty
history leaves exactly 50 past entries — the last 50 pre-commit states. -/
theorem c5_sixty_commits_leave_fifty_witness :
    ∃ A pres, StateManager.runAux s5start wcs5 = some (A, pres) ∧
      (pastL A).length = 50 ∧ pastL A = pres.drop 10 ∧ pres.length = 60 := by
  obtain ⟨A, pres, hrun, hclean⟩ := simpleRun wcs5 s5start (by decide) (by decide)
  obtain ⟨h1, h2, h3⟩ := c5_sixty_commits_leave_fifty s5start wcs5 A pres
    (by decide) rfl (by decide) hclean hrun
  exact ⟨A, pres, hrun, h1, h2, h3⟩

/-! ### Claim C10: watchers and the undo/redo/reset events -/

theorem emitTargets_watch_ne (cbs : List Nat) (n : String) (hn : n ≠ "state:changed") :
    ∀ ls : EventSystem.Listeners,
      EventSystem.emitTargets ls n = [] →
      EventSystem.emitTargets (cbs.foldl StateManager.watch ls) n = [] := by
  induction cbs with
  | nil =>
    intro ls h
    exact h
  | cons cb cbs ih =>
    intro ls h
    refine ih _ ?_
    unfold StateManager.watch EventSystem.onEvt
    unfold EventSystem.emitTargets at h ⊢
    rw [List.append_eq, List.filter_append]
    have hone : (fun (e : String × Nat) => decide (e.1 = n)) ("state:changed", cb) = false := by
      simp only [decide_eq_false_iff_not]
      exact fun he => hn he.symm
    rw [show List.filter (fun e => decide (e.1 = n)) [("state:changed", cb)] = [] from by
      simp [List.filter_cons, hone]]
    rw [List.append_nil]
    exact h

theorem undo_event_names (s u : Value) (evs : List EmitRec)
    (hu : StateManager.undo s = some (u, evs)) :
    ∀ ev ∈ evs, ev.name = "state:undo" := by
  unfold StateManager.undo at hu
  simp only [] at hu
  split at hu
  · cases hu
  · split at hu
    · split at hu
      · simp only [Option.some.injEq, Prod.mk.injEq] at hu
        rw [← hu.2]
        intro ev hev
        cases hev
      · split at hu
        · split at hu
          · cases hu
          · simp only [Option.some.injEq, Prod.mk.injEq] at hu
            rw [← hu.2]
            intro ev hev
            simp only [List.mem_singleton] at hev
            rw [hev]
        · cases hu
    · cases hu

theorem redo_event_names (s u : Value) (evs : List EmitRec)
    (hu : StateManager.redo s = some (u, evs)) :
    ∀ ev ∈ evs, ev.name = "state:redo" := by
  unfold StateManager.redo at hu
  simp only [] at hu
  split at hu
  · cases hu
  · split at hu
    · split at hu
      · simp only [Option.some.injEq, Prod.mk.injEq] at hu
        rw [← hu.2]
        intro ev hev
        cases hev
      · split at hu
        · split at hu
          · cases hu
          · simp only [Option.some.injEq, Prod.mk.injEq] at hu
            rw [← hu.2]
            intro ev hev
            simp only [List.mem_singleton] at hev
            rw [hev]
        · cases hu
    · cases hu

/-- Claim C10: callbacks registered through `StateManager.watch` subscribe
only to `state:changed`; `undo`, `redo` and `reset` emit only
`state:undo`, `state:redo` and `state:reset`, so a listener table built
from `watch` registrations dispatches no callback at all for any event one
of those three operations emits. -/
theorem c10_watchers_silent_on_undo_redo_reset (cbs : List Nat) (s init u w : Value)
    (evsU evsR : List EmitRec)
    (hu : StateManager.undo s = some (u, evsU))
    (hr : StateManager.redo s = some (w, evsR)) :
    ∀ ev ∈ evsU ++ evsR ++ (StateManager.reset init s).2,
      EventSystem.emitTargets (cbs.foldl StateManager.watch []) ev.name = [] := by
  intro ev hev
  have hname : ev.name = "state:undo" ∨ ev.name = "state:redo" ∨ ev.name = "state:reset" := by
    rcases List.mem_append.mp hev with h | h
    · rcases List.mem_append.mp h with h1 | h1
      · exact Or.inl (undo_event_names s u evsU hu ev h1)
      · exact Or.inr (Or.inl (redo_event_names s w evsR hr ev h1))
    · right
      right
      simp only [StateManager.reset, List.mem_singleton] at h
      rw [h]
  have hne : ev.name ≠ "state:changed" := by
    rcases hname with h | h | h <;> rw [h] <;> decide
  exact emitTargets_watch_ne cbs ev.name hne [] rfl

/-- State used by the C10 witness: non-empty past and future, so both undo
and redo really fire their events. -/
def c10state : Value :=
  .vObj [("doc", .vNum 1),
         ("history", .vObj [("past", .vArr [s5start]), ("future", .vArr [s5start])])]

/-- The undo result used by the C10 witness. -/
def c10undo : Value × List EmitRec :=
  (StateManager.undo c10state).getD (Value.vUndef, [])

/-- The redo result used by the C10 witness. -/
def c10redo : Value × List EmitRec :=
  (StateManager.redo c10state).getD (Value.vUndef, [])

/-- Witness for C10: with two watch subscriptions and a state carrying both
history directions, the event `undo` actually emits reaches no watcher. -/
theorem c10_watchers_silent_witness :
    EventSystem.emitTargets ([0, 1].foldl StateManager.watch []) "state:undo" = [] := by
  have h := c10_watchers_silent_on_undo_redo_reset [0, 1] c10state s5start
    c10undo.1 c10redo.1 c10undo.2 c10redo.2 rfl rfl
  exact h ⟨"state:undo", []⟩ (by decide)

/-! ### Claim C4: last-entity guards -/

/-- A page holding exactly one block, for the C4 scenario. -/
def c4page : Value :=
  .vObj [("id", .vStr "p4"), ("header", .vStr ""), ("footer", .vStr ""),
         ("blocks", .vArr [.vObj [("id", .vStr "b4"), ("type", .vStr "text"),
                                  ("content", .vStr "")]]),
         ("settings", .vObj [("size", .vStr "A4")])]

/-- A document state with exactly one page and exactly one block. -/
def c4state : Value :=
  .vObj [("document", .vObj [("id", .vStr "d4"), ("name", .vStr "T"),
           ("pages", .vArr [c4page])]),
         ("ui", .vObj [("currentPage", .vNum 0)]),
         ("history", .vObj [("past", .vArr []), ("future", .vArr [])])]

/-- The result of deleting the only block directly through
`TextEditor.deleteBlock`. -/
def c4deleted : Value × List EmitRec :=
  (TextEditor.deleteBlock c4state "b4" true).getD (Value.vUndef, [])

/-- Claim C4 counterexample: `TextEditor.deleteBlock` itself has no
last-block guard — called directly on the only block of the only page (the
block present in the DOM), it removes the block from the state, leaving the
page's `blocks` empty, so the state is changed, not left unchanged. -/
theorem c4_delete_last_block_counterexample :
    TextEditor.deleteBlock c4state "b4" true = some c4deleted
    ∧ StateManager.getValueAtPath c4deleted.1 "document.pages.0.blocks" = .vArr []
    ∧ c4deleted.1 ≠ c4state := by
  refine ⟨rfl, rfl, fun h => ?_⟩
  have h1 : StateManager.getValueAtPath c4deleted.1 "document.pages.0.blocks"
      = .vArr [] := rfl
  rw [h] at h1
  have h2 : StateManager.getValueAtPath c4state "document.pages.0.blocks"
      = .vArr [.vObj [("id", .vStr "b4"), ("type", .vStr "text"),
                      ("content", .vStr "")]] := rfl
  rw [h2] at h1
  simp at h1

/-- Claim C4 as amended: `deletePage` refuses to delete the only page and
leaves the state unchanged (emitting nothing); the last remaining block is
protected only by the Backspace-keydown guard, which declines to call
`deleteBlock` when the page body shows a single block element —
`TextEditor.deleteBlock` itself carries no such guard (see the
counterexample). -/
theorem c4_last_entity_guards :
    (∀ (s : Value) (pid : String) (confirmed : Bool) (pg : Value),
      StateManager.get s "document.pages" = .ok (.vArr [pg]) →
      PageManager.deletePage s pid confirmed = some (s, []))
    ∧ (∀ (s : Value) (blockId : String) (editorEmptyAndActive domHasBlock : Bool),
      TextEditor.handleBackspaceEmptyBlock s blockId editorEmptyAndActive 1 domHasBlock
        = some (s, [])) := by
  constructor
  · intro s pid confirmed pg h
    unfold PageManager.deletePage PageManager.getPagesOrEmpty
    rw [h]
    simp [Value.truthy]
  · intro s blockId e dhb
    unfold TextEditor.handleBackspaceEmptyBlock
    simp

/-- Witness for the amended C4: on the concrete one-page/one-block state,
`deletePage` with a confirming user and the Backspace handler both leave
the state untouched. -/
theorem c4_last_entity_guards_witness :
    PageManager.deletePage c4state "p4" true = some (c4state, [])
    ∧ TextEditor.handleBackspaceEmptyBlock c4state "b4" true 1 true
        = some (c4state, []) :=
  ⟨c4_last_entity_guards.1 c4state "p4" true c4page rfl,
   c4_last_entity_guards.2 c4state "b4" true true⟩

/-! ### Claim C8: duplicate-page identity -/

/-- A value with its `id` property (if any) removed, for comparing
duplicated content with its source. -/
def stripId (v : Value) : Value :=
  match v with
  | .vObj fs => .vObj (removeField fs "id")
  | v => v

/-- The list of the `id` properties of a page's blocks. -/
def blockIdsOf (pg : Value) : List Value :=
  match Value.getProp pg "blocks" with
  | .vArr bl => bl.map (fun b => Value.getProp b "id")
  | _ => []

/-- The page `duplicatePage` inserts: a clone of the source page with a fresh
page id and fresh block ids (the source blocks are `bs`). -/
def newPageOf (src : Value) (rand : Nat → String) (bs : List Value) : Value :=
  Value.setProp (Value.setProp src "id" (.vStr (generateId "page" (rand 0)))) "blocks"
    (.vArr (bs.mapIdx (fun j b =>
      Value.setProp b "id" (.vStr (generateId "block" (rand (j + 1)))))))

theorem stripId_setProp_id (b x : Value) : stripId (Value.setProp b "id" x) = stripId b := by
  cases b with
  | vObj fs => simp [Value.setProp, stripId, removeField_setField_same]
  | vArr xs => rfl
  | vUndef => rfl
  | vNull => rfl
  | vBool c => rfl
  | vNum n => rfl
  | vStr t => rfl

theorem mapIdx_setId_strip : ∀ (bs : List Value) (f : Nat → String),
    (bs.mapIdx (fun j b => Value.setProp b "id" (.vStr (f j)))).map stripId
      = bs.map stripId
  | [], _ => rfl
  | b :: bs, f => by
    rw [List.mapIdx_cons, List.map_cons, List.map_cons, stripId_setProp_id,
        mapIdx_setId_strip bs (fun j => f (j + 1))]

theorem mapIdx_setId_ids : ∀ (bs : List Value) (f : Nat → String),
    (∀ b ∈ bs, Value.isObjB b = true) →
    (bs.mapIdx (fun j b => Value.setProp b "id" (.vStr (f j)))).map
        (fun b => Value.getProp b "id")
      = (List.range bs.length).map (fun j => Value.vStr (f j))
  | [], _, _ => rfl
  | b :: bs, f, hobj => by
    obtain ⟨fs, hfs⟩ := (isObjB_iff b).mp (hobj b (List.mem_cons_self b bs))
    rw [List.mapIdx_cons, List.map_cons, List.length_cons, List.range_succ_eq_map,
        List.map_cons, hfs, Value.getProp_setProp_obj_same,
        mapIdx_setId_ids bs (fun j => f (j + 1))
          (fun b2 hb2 => hobj b2 (List.mem_cons_of_mem b hb2)),
        List.map_map]
    rfl

/-- The blocks of a page with their ids stripped — the block content the
duplicate must share with its source. -/
def blockContentsOf (pg : Value) : List Value :=
  match Value.getProp pg "blocks" with
  | .vArr bl => bl.map stripId
  | _ => []

/-- Claim C8: `duplicatePage(p)` inserts immediately after `p` a clone of
`p` whose page id is the freshly generated one (differing from `p`'s id
when the generated id is fresh), whose block ids are the freshly generated
ones (disjoint from `p`'s block ids when fresh), and whose remaining fields
— and blocks up to ids — are identical to the source; an unknown `pageId`
is a silent no-op. -/
theorem c8_duplicate_page (s : Value) (pageId : String) (rand : Nat → String)
    (pages : List Value) (i : Nat) (src : Value) (sfs : List (String × Value))
    (bs : List Value)
    (hpages : StateManager.get s "document.pages" = .ok (.vArr pages))
    (hidx : pages.findIdx? (fun p => idEq (Value.getProp p "id") pageId) = some i)
    (hsrc : pages.getD i .vUndef = src)
    (hsfs : src = .vObj sfs)
    (hnu : Value.noUndef src = true)
    (hbl : Value.getProp src "blocks" = .vArr bs)
    (hbsobj : ∀ b ∈ bs, Value.isObjB b = true)
    (hfresh : Value.vStr (generateId "page" (rand 0)) ≠ Value.getProp src "id")
    (hfreshB : ∀ j, j < bs.length →
      Value.vStr (generateId "block" (rand (j + 1))) ∉ blockIdsOf src) :
    PageManager.duplicatePage s pageId rand
      = StateManager.updateM s
          [("document.pages", .vArr (pages.take (i + 1) ++ [newPageOf src rand bs]
              ++ pages.drop (i + 1))),
           ("ui.currentPage", .vNum ((i : Int) + 1))]
    ∧ Value.getProp (newPageOf src rand bs) "id"
        = .vStr (generateId "page" (rand 0))
    ∧ Value.getProp (newPageOf src rand bs) "id" ≠ Value.getProp src "id"
    ∧ blockIdsOf (newPageOf src rand bs)
        = (List.range bs.length).map (fun j => Value.vStr (generateId "block" (rand (j + 1))))
    ∧ (∀ x ∈ blockIdsOf (newPageOf src rand bs), x ∉ blockIdsOf src)
    ∧ (∀ k, k ≠ "id" → k ≠ "blocks" →
        Value.getProp (newPageOf src rand bs) k = Value.getProp src k)
    ∧ blockContentsOf (newPageOf src rand bs) = blockContentsOf src
    ∧ (∀ pid, pages.findIdx? (fun p => idEq (Value.getProp p "id") pid) = none →
        PageManager.duplicatePage s pid rand = some (s, [])) := by
  have hget : PageManager.getPagesOrEmpty s = .ok (.vArr pages) := by
    unfold PageManager.getPagesOrEmpty
    rw [hpages]
    rfl
  have hclone : StateManager.deepCloneE src = .ok src := by
    unfold StateManager.deepCloneE
    rw [show Value.isUndef src = false from by rw [hsfs]; rfl,
        Value.jsonClean_noUndef src hnu]
    simp
  have hp1 : Value.setProp src "id" (.vStr (generateId "page" (rand 0)))
      = .vObj (Value.setField sfs "id" (.vStr (generateId "page" (rand 0)))) := by
    rw [hsfs]
    rfl
  have hblocks1 : Value.getProp (Value.setProp src "id"
      (.vStr (generateId "page" (rand 0)))) "blocks" = .vArr bs := by
    rw [hsfs, Value.getProp_setProp_obj_ne _ "id" "blocks" _ (by decide), ← hsfs]
    exact hbl
  have hB : Value.getProp (newPageOf src rand bs) "id"
      = .vStr (generateId "page" (rand 0)) := by
    unfold newPageOf
    rw [hp1, Value.getProp_setProp_obj_ne _ "blocks" "id" _ (by decide)]
    simp [Value.getProp, Value.lookupF_setField_same]
  have hblocksNew : Value.getProp (newPageOf src rand bs) "blocks"
      = .vArr (bs.mapIdx (fun j b =>
          Value.setProp b "id" (.vStr (generateId "block" (rand (j + 1)))))) := by
    unfold newPageOf
    rw [hp1]
    exact Value.getProp_setProp_obj_same _ "blocks" _
  have hD : blockIdsOf (newPageOf src rand bs)
      = (List.range bs.length).map
          (fun j => Value.vStr (generateId "block" (rand (j + 1)))) := by
    unfold blockIdsOf
    rw [hblocksNew]
    exact mapIdx_setId_ids bs _ hbsobj
  refine ⟨?_, hB, ?_, hD, ?_, ?_, ?_, ?_⟩
  · unfold PageManager.duplicatePage
    simp only [hget, hidx, hsrc, hclone, hblocks1]
    rfl
  · rw [hB]
    exact hfresh
  · intro x hx
    rw [hD] at hx
    obtain ⟨j, hj, rfl⟩ := List.mem_map.mp hx
    exact hfreshB j (List.mem_range.mp hj)
  · intro k hk1 hk2
    unfold newPageOf
    rw [hp1, Value.getProp_setProp_obj_ne _ "blocks" k _ (fun he => hk2 he.symm)]
    rw [show (Value.vObj (Value.setField sfs "id" (.vStr (generateId "page" (rand 0)))))
        = Value.setProp (.vObj sfs) "id" (.vStr (generateId "page" (rand 0))) from rfl]
    rw [Value.getProp_setProp_obj_ne sfs "id" k _ (fun he => hk1 he.symm), ← hsfs]
  · unfold blockContentsOf
    rw [hblocksNew, hbl]
    exact mapIdx_setId_strip bs _
  · intro pid hnone
    unfold PageManager.duplicatePage
    simp only [hget, hnone]

/-- Block of the C8 witness page. -/
def c8block : Value :=
  .vObj [("id", .vStr "b8"), ("type", .vStr "text"), ("content", .vStr "hello")]

/-- Source page of the C8 witness. -/
def c8pageW : Value :=
  .vObj [("id", .vStr "p8"), ("header", .vStr "H"), ("footer", .vStr "F"),
         ("blocks", .vArr [c8block]), ("settings", .vObj [("size", .vStr "A4")])]

/-- Document state of the C8 witness. -/
def c8state : Value :=
  .vObj [("document", .vObj [("id", .vStr "d8"), ("name", .vStr "T"),
           ("pages", .vArr [c8pageW])]),
         ("ui", .vObj [("currentPage", .vNum 0)]),
         ("history", .vObj [("past", .vArr []), ("future", .vArr [])])]

/-- Random-suffix supply for the C8 witness (`"page-0"`, `"block-1"`, …). -/
def c8rand : Nat → String := fun n => toString n

/-- Witness for C8: on a concrete one-page document the duplicated page gets
a different id, identical block content, and an unknown page id is a no-op. -/
theorem c8_duplicate_page_witness :
    Value.getProp (newPageOf c8pageW c8rand [c8block]) "id"
        ≠ Value.getProp c8pageW "id"
    ∧ blockContentsOf (newPageOf c8pageW c8rand [c8block]) = blockContentsOf c8pageW
    ∧ PageManager.duplicatePage c8state "nope" c8rand = some (c8state, []) := by
  have hfresh : Value.vStr (generateId "page" (c8rand 0))
      ≠ Value.getProp c8pageW "id" := by
    intro h
    rw [show Value.getProp c8pageW "id" = Value.vStr "p8" from rfl] at h
    exact absurd (Value.vStr.inj h) (by decide)
  have hfreshB : ∀ j, j < ([c8block] : List Value).length →
      Value.vStr (generateId "block" (c8rand (j + 1))) ∉ blockIdsOf c8pageW := by
    intro j hj h
    have hj0 : j = 0 := by
      simp at hj
      omega
    subst hj0
    rw [show blockIdsOf c8pageW = [Value.vStr "b8"] from rfl] at h
    simp only [List.mem_singleton] at h
    exact absurd (Value.vStr.inj h) (by decide)
  obtain ⟨_, _, h3, _, _, _, h7, h8⟩ := c8_duplicate_page c8state "p8" c8rand [c8pageW] 0
    c8pageW
    [("id", .vStr "p8"), ("header", .vStr "H"), ("footer", .vStr "F"),
     ("blocks", .vArr [c8block]), ("settings", .vObj [("size", .vStr "A4")])]
    [c8block] rfl rfl rfl rfl (by decide) rfl (by decide) hfresh hfreshB
  exact ⟨h3, h7, h8 "nope" rfl⟩
